import Mathlib

/-!
Verification of the Monkey interpreter front-end (lexer), bytecode compiler and
REPL surface of the ZeroBl21/go-interpreter repository.

The Go sources are shallowly embedded: Go strings are byte lists (`List Nat`),
Go structs are structures, Go methods that mutate a receiver become functions
returning the updated value, and fallible methods return `Except String`.
The `code` package (opcode set, operand widths and `Make`) is not part of the
sources and is modelled from the spec where noted.
-/

namespace Monkey

/-! ## Runtime objects (package `object`)

Translated from the `object` package source: `ObjectType` is a string tag;
`Integer`, `Boolean` and `Null` are the three object kinds present.
-/

inductive Object where
  | integer (value : Int)
  | boolean (value : Bool)
  | null
  deriving DecidableEq, Repr

def INTEGER_OBJ : String := "INTEGER"

def BOOLEAN_OBJ : String := "BOOLEAN"

def NULL_OBJ : String := "NULL"

/-- The `Type()` method of the object kinds, exactly as in the source.
Note that the source's `Boolean.Type()` returns `INTEGER_OBJ`, not
`BOOLEAN_OBJ`; the translation reproduces this faithfully. -/
def Object.objectType : Object → String
  | .integer _ => INTEGER_OBJ
  | .boolean _ => INTEGER_OBJ
  | .null => NULL_OBJ

/-- The `Inspect()` method: integers print decimally, booleans as
`true`/`false`, null as `null`. -/
def Object.inspect : Object → String
  | .integer v => toString v
  | .boolean b => if b then "true" else "false"
  | .null => "null"

/-! ## Tokens (package `token`)

Token types are Go string constants.  The constants below up to `LET` are the
ones defined in `token.go` of the sources.  A token literal is a byte list,
matching Go strings.
-/

def ILLEGAL : String := "ILLEGAL"

def EOF : String := "EOF"

def IDENT : String := "IDENT"

def INT : String := "INT"

def ASSIGN : String := "="

def PLUS : String := "+"

def COMMA : String := ","

def SEMICOLON : String := ";"

def LPAREN : String := "("

def RPAREN : String := ")"

def LBRACE : String := "\x7b"

def RBRACE : String := "\x7d"

def FUNCTION : String := "FUNCTION"

def LET : String := "LET"

/-- Modelled from the spec: the token alphabet also contains
`MINUS(-), BANG(!), ASTERISK(*), SLASH(/), LT(<), GT(>), EQ(==), NOT_EQ(!=)`.
The lexer source refers to these `token` constants, but the `token.go` file in
the sources does not define them (it stops at `FUNCTION`/`LET`). -/
def MINUS : String := "-"

/-- Modelled from the spec: see `MINUS`. -/
def BANG : String := "!"

/-- Modelled from the spec: see `MINUS`. -/
def ASTERISK : String := "*"

/-- Modelled from the spec: see `MINUS`. -/
def SLASH : String := "/"

/-- Modelled from the spec: see `MINUS`. -/
def LT : String := "<"

/-- Modelled from the spec: see `MINUS`. -/
def GT : String := ">"

/-- Modelled from the spec: see `MINUS`. -/
def EQ : String := "=="

/-- Modelled from the spec: see `MINUS`. -/
def NOT_EQ : String := "!="

structure Token where
  type : String
  literal : List Nat
  deriving DecidableEq, Repr

/-- The keyword table of `token.go`.  The source file defines exactly two
entries: `"fn" → FUNCTION` and `"let" → LET`.  `[102, 110]` is `"fn"`,
`[108, 101, 116]` is `"let"` as bytes. -/
def LookupIdent (ident : List Nat) : String :=
  if ident = [102, 110] then FUNCTION
  else if ident = [108, 101, 116] then LET
  else IDENT

/-! ## Lexer (package `lexer`) -/

structure Lexer where
  input : List Nat
  position : Nat
  readPosition : Nat
  ch : Nat
  deriving DecidableEq, Repr

/-- `readChar`: load the byte at `readPosition` (or 0 at end of input) into
`ch` and advance the window. -/
def readChar (l : Lexer) : Lexer :=
  { l with
    ch := if l.input.length ≤ l.readPosition then 0 else l.input.getD l.readPosition 0
    position := l.readPosition
    readPosition := l.readPosition + 1 }

/-- `New`: build a lexer over `input` and prime it with one `readChar`. -/
def Lexer.new (input : List Nat) : Lexer :=
  readChar { input := input, position := 0, readPosition := 0, ch := 0 }

/-- `peekChar`: the byte at `readPosition` without advancing (0 at end). -/
def peekChar (l : Lexer) : Nat :=
  if l.input.length ≤ l.readPosition then 0 else l.input.getD l.readPosition 0

/-- `isLetter`: ASCII letters and underscore. -/
def isLetter (ch : Nat) : Bool :=
  (97 ≤ ch && ch ≤ 122) || (65 ≤ ch && ch ≤ 90) || ch == 95

/-- `isDigit`: ASCII digits. -/
def isDigit (ch : Nat) : Bool :=
  48 ≤ ch && ch ≤ 57

/-- `isWhitespace`: the four bytes skipped by `skipWhitespace`
(space, tab, newline, carriage return). -/
def isWhitespace (ch : Nat) : Bool :=
  ch == 32 || ch == 9 || ch == 10 || ch == 13

/-- The loop body of `skipWhitespace`: repeat `readChar` while the current
byte is whitespace.  The fuel `l.input.length + 2` always dominates the number
of iterations the Go loop performs (each `readChar` increments `readPosition`,
and past the end `ch` becomes 0, which is not whitespace). -/
def skipWsLoop : Nat → Lexer → Lexer
  | 0, l => l
  | fuel + 1, l => if isWhitespace l.ch then skipWsLoop fuel (readChar l) else l

def skipWhitespace (l : Lexer) : Lexer :=
  skipWsLoop (l.input.length + 2) l

/-- The loop of `readIdentifier`: advance while `isLetter` holds. -/
def readIdentLoop : Nat → Lexer → Lexer
  | 0, l => l
  | fuel + 1, l => if isLetter l.ch then readIdentLoop fuel (readChar l) else l

/-- Go slice `input[a:b]`. -/
def sliceBytes (s : List Nat) (a b : Nat) : List Nat :=
  (s.take b).drop a

/-- `readIdentifier`: record the start position, advance while letters, and
return the slice together with the advanced lexer. -/
def readIdentifier (l : Lexer) : List Nat × Lexer :=
  let l' := readIdentLoop (l.input.length + 2) l
  (sliceBytes l.input l.position l'.position, l')

/-- The loop of `readNumber`: advance while `isDigit` holds. -/
def readNumLoop : Nat → Lexer → Lexer
  | 0, l => l
  | fuel + 1, l => if isDigit l.ch then readNumLoop fuel (readChar l) else l

/-- `readNumber`: like `readIdentifier` but for digit runs. -/
def readNumber (l : Lexer) : List Nat × Lexer :=
  let l' := readNumLoop (l.input.length + 2) l
  (sliceBytes l.input l.position l'.position, l')

/-- `newToken`: a token whose literal is the single byte `ch`. -/
def newToken (tokenType : String) (ch : Nat) : Token :=
  { type := tokenType, literal := [ch] }

/-- `NextToken`, translated case by case from the Go `switch`.  Each simple
case ends with the trailing `readChar` the Go code performs after the switch;
the identifier/number cases return early, exactly as the source does.
Byte literals: 59 `;`, 61 `=`, 43 `+`, 45 `-`, 42 `*`, 47 `/`, 33 `!`,
44 `,`, 40 `(`, 41 `)`, 60 `<`, 62 `>`, 123 left brace, 125 right brace. -/
def NextToken (l0 : Lexer) : Token × Lexer :=
  let l := skipWhitespace l0
  if l.ch = 59 then (newToken SEMICOLON l.ch, readChar l)
  else if l.ch = 61 then
    if peekChar l = 61 then
      let ch := l.ch
      let l1 := readChar l
      ({ type := EQ, literal := [ch, l1.ch] }, readChar l1)
    else (newToken ASSIGN l.ch, readChar l)
  else if l.ch = 43 then (newToken PLUS l.ch, readChar l)
  else if l.ch = 45 then (newToken MINUS l.ch, readChar l)
  else if l.ch = 42 then (newToken ASTERISK l.ch, readChar l)
  else if l.ch = 47 then (newToken SLASH l.ch, readChar l)
  else if l.ch = 33 then
    if peekChar l = 61 then
      let ch := l.ch
      let l1 := readChar l
      ({ type := NOT_EQ, literal := [ch, l1.ch] }, readChar l1)
    else (newToken BANG l.ch, readChar l)
  else if l.ch = 44 then (newToken COMMA l.ch, readChar l)
  else if l.ch = 40 then (newToken LPAREN l.ch, readChar l)
  else if l.ch = 41 then (newToken RPAREN l.ch, readChar l)
  else if l.ch = 60 then (newToken LT l.ch, readChar l)
  else if l.ch = 62 then (newToken GT l.ch, readChar l)
  else if l.ch = 123 then (newToken LBRACE l.ch, readChar l)
  else if l.ch = 125 then (newToken RBRACE l.ch, readChar l)
  else if l.ch = 0 then ({ type := EOF, literal := [] }, readChar l)
  else if isLetter l.ch then
    let r := readIdentifier l
    ({ type := LookupIdent r.1, literal := r.1 }, r.2)
  else if isDigit l.ch then
    let r := readNumber l
    ({ type := INT, literal := r.1 }, r.2)
  else (newToken ILLEGAL l.ch, readChar l)

/-- The token produced by the `n`-th call to `NextToken` (0-indexed), starting
from lexer state `l`. -/
def nthToken (l : Lexer) : Nat → Token
  | 0 => (NextToken l).1
  | n + 1 => nthToken (NextToken l).2 n

/-! ## Opcodes and instruction encoding (package `code`)

Modelled from the spec: the `code` package is not among the sources, so the
opcode set, the operand-width table and `Make` are taken from the spec's
opcode table ("single-byte opcode, big-endian operands of widths specified").
Opcode byte values are assigned in table order starting at 0.
-/

inductive Op where
  | OpConstant
  | OpPop
  | OpAdd
  | OpSub
  | OpMul
  | OpDiv
  | OpTrue
  | OpFalse
  | OpNull
  | OpEqual
  | OpNotEqual
  | OpGreaterThan
  | OpMinus
  | OpBang
  | OpJumpNotTruthy
  | OpJump
  | OpSetGlobal
  | OpGetGlobal
  | OpSetLocal
  | OpGetLocal
  | OpGetBuiltin
  | OpGetFree
  | OpCurrentClosure
  | OpArray
  | OpHash
  | OpIndex
  | OpCall
  | OpReturnValue
  | OpReturn
  | OpClosure
  deriving DecidableEq, Repr

/-- Modelled from the spec: operand widths per opcode (2 = u16, 1 = u8).
`OpClosure` takes a u16 constant index and a u8 free count. -/
def operandWidths : Op → List Nat
  | .OpConstant => [2]
  | .OpJumpNotTruthy => [2]
  | .OpJump => [2]
  | .OpSetGlobal => [2]
  | .OpGetGlobal => [2]
  | .OpArray => [2]
  | .OpHash => [2]
  | .OpSetLocal => [1]
  | .OpGetLocal => [1]
  | .OpGetBuiltin => [1]
  | .OpGetFree => [1]
  | .OpCall => [1]
  | .OpClosure => [2, 1]
  | _ => []

/-- Modelled from the spec: opcode bytes in table order. -/
def opByte : Op → Nat
  | .OpConstant => 0
  | .OpPop => 1
  | .OpAdd => 2
  | .OpSub => 3
  | .OpMul => 4
  | .OpDiv => 5
  | .OpTrue => 6
  | .OpFalse => 7
  | .OpNull => 8
  | .OpEqual => 9
  | .OpNotEqual => 10
  | .OpGreaterThan => 11
  | .OpMinus => 12
  | .OpBang => 13
  | .OpJumpNotTruthy => 14
  | .OpJump => 15
  | .OpSetGlobal => 16
  | .OpGetGlobal => 17
  | .OpSetLocal => 18
  | .OpGetLocal => 19
  | .OpGetBuiltin => 20
  | .OpGetFree => 21
  | .OpCurrentClosure => 22
  | .OpArray => 23
  | .OpHash => 24
  | .OpIndex => 25
  | .OpCall => 26
  | .OpReturnValue => 27
  | .OpReturn => 28
  | .OpClosure => 29

/-- Inverse of `opByte` (the `Opcode(byte)` cast followed by the definition
table lookup that Go's `Make` performs). -/
def opOfByte (b : Nat) : Option Op :=
  if b = 0 then some .OpConstant
  else if b = 1 then some .OpPop
  else if b = 2 then some .OpAdd
  else if b = 3 then some .OpSub
  else if b = 4 then some .OpMul
  else if b = 5 then some .OpDiv
  else if b = 6 then some .OpTrue
  else if b = 7 then some .OpFalse
  else if b = 8 then some .OpNull
  else if b = 9 then some .OpEqual
  else if b = 10 then some .OpNotEqual
  else if b = 11 then some .OpGreaterThan
  else if b = 12 then some .OpMinus
  else if b = 13 then some .OpBang
  else if b = 14 then some .OpJumpNotTruthy
  else if b = 15 then some .OpJump
  else if b = 16 then some .OpSetGlobal
  else if b = 17 then some .OpGetGlobal
  else if b = 18 then some .OpSetLocal
  else if b = 19 then some .OpGetLocal
  else if b = 20 then some .OpGetBuiltin
  else if b = 21 then some .OpGetFree
  else if b = 22 then some .OpCurrentClosure
  else if b = 23 then some .OpArray
  else if b = 24 then some .OpHash
  else if b = 25 then some .OpIndex
  else if b = 26 then some .OpCall
  else if b = 27 then some .OpReturnValue
  else if b = 28 then some .OpReturn
  else if b = 29 then some .OpClosure
  else none

/-- Big-endian encoding of one operand of width `w` (u16 or u8), with the
truncation Go's integer casts perform. -/
def encW (w v : Nat) : List Nat :=
  if w = 2 then [v / 256 % 256, v % 256]
  else if w = 1 then [v % 256]
  else []

/-- Modelled from the spec: `Make(op, operands...)` encodes the opcode byte
followed by each operand in big-endian order at its declared width. -/
def Make (op : Op) (operands : List Nat) : List Nat :=
  opByte op :: (List.zipWith encW (operandWidths op) operands).flatten

/-! ## AST (package `ast`)

The interface-tagged Go AST becomes a closed family of mutual inductives.
`StmtList` and `AltBlock` materialise `[]Statement` and the nilable
`*BlockStatement` alternative so that all recursion stays structural.
Only the node kinds the compiler can meet are represented; `LetStatement` and
`ReturnStatenment` (sic) are statements, all others are expressions.
-/

mutual

inductive Expr where
  | identE (name : String)
  | intLit (value : Int)
  | boolLit (value : Bool)
  | prefixE (op : String) (right : Expr)
  | infixE (op : String) (left right : Expr)
  | ifE (cond : Expr) (consequence : Block) (alternative : AltBlock)
  deriving DecidableEq, Repr

inductive Stmt where
  | letS (name : String) (value : Expr)
  | returnS (value : Expr)
  | exprS (e : Expr)
  deriving DecidableEq, Repr

inductive StmtList where
  | nil
  | cons (s : Stmt) (rest : StmtList)
  deriving DecidableEq, Repr

inductive Block where
  | mk (stmts : StmtList)
  deriving DecidableEq, Repr

inductive AltBlock where
  | noneB
  | someB (b : Block)
  deriving DecidableEq, Repr

end

/-- `ast.Program` holds a statement list. -/
structure Program where
  statements : StmtList
  deriving DecidableEq, Repr

/-! ## Compiler (package `compiler`) -/

structure EmittedInstruction where
  opcode : Op
  position : Nat
  deriving DecidableEq, Repr

structure Compiler where
  instructions : List Nat
  constants : List Object
  lastInstruction : EmittedInstruction
  previousInstruction : EmittedInstruction
  deriving DecidableEq, Repr

structure Bytecode where
  instructions : List Nat
  constants : List Object
  deriving DecidableEq, Repr

/-- `New()`: empty buffers; the zero value of Go's `EmittedInstruction` has
opcode byte 0, which is `OpConstant`, and position 0. -/
def Compiler.new : Compiler :=
  { instructions := []
    constants := []
    lastInstruction := { opcode := .OpConstant, position := 0 }
    previousInstruction := { opcode := .OpConstant, position := 0 } }

/-- `addConstant`: append and return the new constant's index. -/
def addConstant (c : Compiler) (obj : Object) : Compiler × Nat :=
  ({ c with constants := c.constants ++ [obj] }, c.constants.length)

/-- `addInstructions`: append encoded bytes, returning the position where the
new instruction starts. -/
def addInstructions (c : Compiler) (ins : List Nat) : Compiler × Nat :=
  ({ c with instructions := c.instructions ++ ins }, c.instructions.length)

/-- `setLastInstruction`. -/
def setLastInstruction (c : Compiler) (op : Op) (pos : Nat) : Compiler :=
  { c with
    previousInstruction := c.lastInstruction
    lastInstruction := { opcode := op, position := pos } }

/-- `emit`: encode, append, record as the last instruction. -/
def emit (c : Compiler) (op : Op) (operands : List Nat) : Compiler × Nat :=
  let r := addInstructions c (Make op operands)
  (setLastInstruction r.1 op r.2, r.2)

/-- `lastInstructionIsPop`. -/
def lastInstructionIsPop (c : Compiler) : Bool :=
  c.lastInstruction.opcode == Op.OpPop

/-- `removeLastPop`: truncate at the last instruction's start. -/
def removeLastPop (c : Compiler) : Compiler :=
  { c with
    instructions := c.instructions.take c.lastInstruction.position
    lastInstruction := c.previousInstruction }

/-- The in-place byte overwrite loop of `replaceInstruction`. -/
def setBytes (ins : List Nat) (pos : Nat) : List Nat → List Nat
  | [] => ins
  | b :: bs => setBytes (ins.set pos b) (pos + 1) bs

/-- `replaceInstruction`. -/
def replaceInstruction (c : Compiler) (pos : Nat) (newInstruction : List Nat) : Compiler :=
  { c with instructions := setBytes c.instructions pos newInstruction }

/-- `changeOperand`: re-read the opcode byte at `opPos`, re-`Make` the
instruction with the new operand and overwrite it in place.  (Go's `Make`
yields an empty byte slice for a byte that is no defined opcode, which makes
the overwrite a no-op.) -/
def changeOperand (c : Compiler) (opPos operand : Nat) : Compiler :=
  match opOfByte (c.instructions.getD opPos 0) with
  | some op => replaceInstruction c opPos (Make op [operand])
  | none => replaceInstruction c opPos []

/-! `Compile`, split by node kind.  The Go `switch node := node.(type)` has
cases for `Program`, `ExpressionStatement`, `BlockStatement`,
`InfixExpression`, `PrefixExpression`, `IfExpression`, `IntegerLiteral` and
`Boolean` only; every other node kind (identifiers, let and return
statements) falls through the switch and returns `nil`. -/

mutual

def compileExpr (c : Compiler) : Expr → Except String Compiler
  | .identE _ => .ok c
  | .intLit v =>
      let r := addConstant c (.integer v)
      .ok (emit r.1 .OpConstant [r.2]).1
  | .boolLit value =>
      if value then .ok (emit c .OpTrue []).1 else .ok (emit c .OpFalse []).1
  | .prefixE op right =>
      match compileExpr c right with
      | .error e => .error e
      | .ok c1 =>
          if op = "!" then .ok (emit c1 .OpBang []).1
          else if op = "-" then .ok (emit c1 .OpMinus []).1
          else .error ("unknown operator " ++ op)
  | .infixE op left right =>
      if op = "<" then
        match compileExpr c right with
        | .error e => .error e
        | .ok c1 =>
            match compileExpr c1 left with
            | .error e => .error e
            | .ok c2 => .ok (emit c2 .OpGreaterThan []).1
      else
        match compileExpr c left with
        | .error e => .error e
        | .ok c1 =>
            match compileExpr c1 right with
            | .error e => .error e
            | .ok c2 =>
                if op = "+" then .ok (emit c2 .OpAdd []).1
                else if op = "-" then .ok (emit c2 .OpSub []).1
                else if op = "*" then .ok (emit c2 .OpMul []).1
                else if op = "/" then .ok (emit c2 .OpDiv []).1
                else if op = ">" then .ok (emit c2 .OpGreaterThan []).1
                else if op = "==" then .ok (emit c2 .OpEqual []).1
                else if op = "!=" then .ok (emit c2 .OpNotEqual []).1
                else .error ("unknown operator " ++ op)
  | .ifE cond consequence .noneB =>
      match compileExpr c cond with
      | .error e => .error e
      | .ok c1 =>
          let r2 := emit c1 .OpJumpNotTruthy [9999]
          match compileBlock r2.1 consequence with
          | .error e => .error e
          | .ok c3 =>
              let c4 := if lastInstructionIsPop c3 then removeLastPop c3 else c3
              let r5 := emit c4 .OpJump [9999]
              let c6 := changeOperand r5.1 r2.2 r5.1.instructions.length
              let c7 := (emit c6 .OpNull []).1
              .ok (changeOperand c7 r5.2 c7.instructions.length)
  | .ifE cond consequence (.someB alt) =>
      match compileExpr c cond with
      | .error e => .error e
      | .ok c1 =>
          let r2 := emit c1 .OpJumpNotTruthy [9999]
          match compileBlock r2.1 consequence with
          | .error e => .error e
          | .ok c3 =>
              let c4 := if lastInstructionIsPop c3 then removeLastPop c3 else c3
              let r5 := emit c4 .OpJump [9999]
              let c6 := changeOperand r5.1 r2.2 r5.1.instructions.length
              match compileBlock c6 alt with
              | .error e => .error e
              | .ok c7 =>
                  let c8 := if lastInstructionIsPop c7 then removeLastPop c7 else c7
                  .ok (changeOperand c8 r5.2 c8.instructions.length)

def compileStmt (c : Compiler) : Stmt → Except String Compiler
  | .letS _ _ => .ok c
  | .returnS _ => .ok c
  | .exprS e =>
      match compileExpr c e with
      | .error er => .error er
      | .ok c1 => .ok (emit c1 .OpPop []).1

def compileStmts (c : Compiler) : StmtList → Except String Compiler
  | .nil => .ok c
  | .cons s rest =>
      match compileStmt c s with
      | .error e => .error e
      | .ok c1 => compileStmts c1 rest

def compileBlock (c : Compiler) : Block → Except String Compiler
  | .mk stmts => compileStmts c stmts

end

/-- The `Program` case of `Compile`: the same statement loop. -/
def compileProgram (c : Compiler) (p : Program) : Except String Compiler :=
  compileStmts c p.statements

/-- `Bytecode()`. -/
def Compiler.bytecode (c : Compiler) : Bytecode :=
  { instructions := c.instructions, constants := c.constants }

/-- Compile a whole program from a fresh compiler and take its bytecode, the
way the REPL drives the compiler. -/
def programBytecode (p : Program) : Except String Bytecode :=
  match compileProgram Compiler.new p with
  | .error e => .error e
  | .ok c => .ok c.bytecode

/-! ## Instruction decoding

Modelled from the spec: `ReadOperands` is the declared inverse of `Make`,
reading big-endian operands at the widths of the definition table.  The
decoder below walks a whole instruction stream; it is used to state stream
invariants (constant indices, the set of opcodes that occur).
-/

/-- Read one operand list at the given widths, returning the operands and the
remaining bytes. -/
def readOperands : List Nat → List Nat → Option (List Nat × List Nat)
  | [], bytes => some ([], bytes)
  | w :: ws, bytes =>
      if w = 2 then
        match bytes with
        | b1 :: b2 :: rest =>
            match readOperands ws rest with
            | some (vs, rem) => some ((b1 * 256 + b2) :: vs, rem)
            | none => none
        | _ => none
      else if w = 1 then
        match bytes with
        | b :: rest =>
            match readOperands ws rest with
            | some (vs, rem) => some (b :: vs, rem)
            | none => none
        | _ => none
      else none

/-- Decode at most `fuel` instructions from a byte stream. -/
def decodeLoop : Nat → List Nat → Option (List (Op × List Nat))
  | _, [] => some []
  | 0, _ :: _ => none
  | fuel + 1, b :: rest =>
      match opOfByte b with
      | none => none
      | some op =>
          match readOperands (operandWidths op) rest with
          | none => none
          | some (args, rem) =>
              match decodeLoop fuel rem with
              | none => none
              | some ds => some ((op, args) :: ds)

/-- Decode a whole instruction stream into `(opcode, operands)` records. -/
def decodeInstrs (bytes : List Nat) : Option (List (Op × List Nat)) :=
  decodeLoop bytes.length bytes

/-! ## REPL (package `repl`)

One iteration of the `Start` loop, after a line has been scanned.  The
parser, compiler driver and VM live outside the sources kept here, so their
outcomes are abstract inputs: the list of parser errors, the result of
`Compile`, the result of `Run`, and the string `LastPoppedStackElem().Inspect()`
returns after the run.  The function returns, in order, the strings the
iteration writes to `out`.
-/

def MONKEY_FACE : String :=
"            __,__\n   .--.  .-\"     \"-.  .--.\n  / .. \\/  .-. .-.  \\/ .. \\\n | |  '|  /   Y   \\  |'  | |\n | \\   \\  \\ 0 | 0 /  /   / |\n  \\ '- ,\\.-\"\"\"\"\"\"\"-./, -' /\n   ''-' /_   ^ ^   _\\ '-''\n       |  \\._   _./  |\n       \\   \\ '~' /   /\n        '._ '-=-' _.'\n           '-----'\n"

/-- `printParserErrors`. -/
def printParserErrors (errors : List String) : List String :=
  [MONKEY_FACE, "Woops! We ran into some monkey business here\n", " parser errors:\n"]
    ++ errors.map (fun msg => "\t" ++ msg ++ "\n")

/-- One REPL iteration: parser errors short-circuit with the banner; a compile
error short-circuits with its diagnostic (`continue`); a run error prints its
diagnostic but does not `continue`, so the loop body goes on to print the
inspected last-popped value and a newline in every non-`continue` path. -/
def replIteration (parserErrors : List String) (compileResult : Except String Unit)
    (runResult : Except String Unit) (lastPoppedInspect : String) : List String :=
  if parserErrors.length ≠ 0 then printParserErrors parserErrors
  else
    match compileResult with
    | .error msg => ["Woops! Compilation failed:\n " ++ msg ++ "\n"]
    | .ok _ =>
        (match runResult with
         | .error msg => ["Woops! Executing bytecode failed:\n" ++ msg ++ "\n"]
         | .ok _ => [])
        ++ [lastPoppedInspect, "\n"]

/-! ## Well-formed compiler states

The compiler's byte buffer is always the flat encoding of a list of abstract
instructions, and `lastInstruction`/`previousInstruction` describe the last
and second-to-last entries of that list.  These predicates make that
relationship precise; they are the backbone of every claim about `Compile`.
-/

structure AbsIns where
  op : Op
  args : List Nat
  deriving DecidableEq, Repr

def encIns (i : AbsIns) : List Nat := Make i.op i.args

def flatIns (L : List AbsIns) : List Nat := (L.map encIns).flatten

/-- The sixteen opcodes this compiler stage can emit. -/
def emittedOps : List Op :=
  [.OpConstant, .OpPop, .OpAdd, .OpSub, .OpMul, .OpDiv, .OpTrue, .OpFalse,
   .OpNull, .OpEqual, .OpNotEqual, .OpGreaterThan, .OpMinus, .OpBang,
   .OpJumpNotTruthy, .OpJump]

/-- An abstract instruction is well formed at constant-pool size `nconsts`:
its operand count matches the width table, its opcode is one the compiler
emits, and an `OpConstant` operand indexes into the pool. -/
def instrOK (i : AbsIns) (nconsts : Nat) : Prop :=
  i.args.length = (operandWidths i.op).length ∧
  i.op ∈ emittedOps ∧
  (i.op = Op.OpConstant → ∀ a ∈ i.args, a < nconsts)

/-- `e` correctly describes the final entry of `L` (or is the zero record
when `L` is empty). -/
def lastOK (L : List AbsIns) (e : EmittedInstruction) : Prop :=
  (L = [] ∧ e = { opcode := Op.OpConstant, position := 0 }) ∨
  (∃ M i, L = M ++ [i] ∧ e.opcode = i.op ∧ e.position = (flatIns M).length)

/-- Weak well-formedness: byte buffer is the encoding of `L`, the last
instruction record is accurate, and every entry is `instrOK`. -/
def WF1 (c : Compiler) (L : List AbsIns) : Prop :=
  c.instructions = flatIns L ∧
  lastOK L c.lastInstruction ∧
  ∀ i ∈ L, instrOK i c.constants.length

/-- Strong well-formedness: additionally the previous-instruction record
describes the second-to-last entry. -/
def WF2 (c : Compiler) (L : List AbsIns) : Prop :=
  WF1 c L ∧ lastOK L.dropLast c.previousInstruction

theorem wf2_new : WF2 Compiler.new [] := by
  refine ⟨⟨rfl, Or.inl ⟨rfl, rfl⟩, by simp⟩, Or.inl ⟨rfl, rfl⟩⟩

theorem flatIns_append (A B : List AbsIns) :
    flatIns (A ++ B) = flatIns A ++ flatIns B := by
  simp [flatIns]

theorem flatIns_concat (A : List AbsIns) (i : AbsIns) :
    flatIns (A ++ [i]) = flatIns A ++ encIns i := by
  simp [flatIns]

theorem encIns_cons (i : AbsIns) :
    encIns i = opByte i.op :: (List.zipWith encW (operandWidths i.op) i.args).flatten := rfl

/-- The byte length of one encoded operand depends only on its width. -/
theorem encW_length (w v : Nat) :
    (encW w v).length = if w = 2 then 2 else if w = 1 then 1 else 0 := by
  unfold encW
  split <;> [simp_all; skip]
  split <;> simp_all

/-- The total operand byte length is a function of the width list alone once
the operand count matches it. -/
theorem zip_encW_length : ∀ (ws args : List Nat), args.length = ws.length →
    ((List.zipWith encW ws args).flatten).length
      = (ws.map (fun w => if w = 2 then 2 else if w = 1 then 1 else 0)).sum := by
  intro ws
  induction ws with
  | nil => intro args h; cases List.length_eq_zero.mp h; simp
  | cons w ws ih =>
      intro args h
      cases args with
      | nil => simp at h
      | cons a as =>
          simp only [List.zipWith_cons_cons, List.flatten_cons, List.length_append,
            List.map_cons, List.sum_cons]
          rw [encW_length, ih as (by simpa using h)]

/-- Two abstract instructions with the same opcode and operand counts encode
to byte strings of the same length. -/
theorem encIns_length_eq (i j : AbsIns) (hop : j.op = i.op)
    (hi : i.args.length = (operandWidths i.op).length)
    (hj : j.args.length = (operandWidths j.op).length) :
    (encIns j).length = (encIns i).length := by
  rw [encIns_cons, encIns_cons, hop]
  simp only [List.length_cons, Nat.succ_inj]
  rw [hop] at hj
  rw [zip_encW_length _ j.args hj, zip_encW_length _ i.args hi]

theorem concat_inj {α : Type} {X Y : List α} {u v : α}
    (h : X ++ [u] = Y ++ [v]) : X = Y ∧ u = v := by
  have h1 : (X ++ [u]).dropLast = (Y ++ [v]).dropLast := by rw [h]
  rw [List.dropLast_concat, List.dropLast_concat] at h1
  have h2 : (X ++ [u]).getLast? = (Y ++ [v]).getLast? := by rw [h]
  rw [List.getLast?_concat, List.getLast?_concat] at h2
  exact ⟨h1, Option.some_injective _ h2⟩

theorem flatIns_cons (j : AbsIns) (B : List AbsIns) :
    flatIns (j :: B) = encIns j ++ flatIns B := by
  simp [flatIns]

theorem flatIns_singleton (i : AbsIns) : flatIns [i] = encIns i := by
  simp [flatIns]

theorem flatIns_nil : flatIns [] = [] := rfl

/-- `emit` in explicit record form. -/
theorem emit_eq (c : Compiler) (op : Op) (args : List Nat) :
    emit c op args =
      ({ instructions := c.instructions ++ Make op args
         constants := c.constants
         lastInstruction := { opcode := op, position := c.instructions.length }
         previousInstruction := c.lastInstruction },
       c.instructions.length) := rfl

/-- Emitting a well-formed instruction turns a weakly well-formed state into a
strongly well-formed one, appending to the abstract program. -/
theorem emit_wf (c : Compiler) (L : List AbsIns) (op : Op) (args : List Nat)
    (h : WF1 c L)
    (ha : args.length = (operandWidths op).length)
    (hm : op ∈ emittedOps)
    (hc : op = Op.OpConstant → ∀ a ∈ args, a < c.constants.length) :
    WF2 (emit c op args).1 (L ++ [⟨op, args⟩]) ∧
    (emit c op args).2 = (flatIns L).length ∧
    (emit c op args).1.constants = c.constants ∧
    (emit c op args).1.instructions = flatIns L ++ Make op args := by
  obtain ⟨hins, hlast, hok⟩ := h
  rw [emit_eq]
  refine ⟨⟨⟨?_, ?_, ?_⟩, ?_⟩, by rw [hins], rfl, by rw [hins]⟩
  · rw [hins, flatIns_concat]; rfl
  · exact Or.inr ⟨L, ⟨op, args⟩, rfl, rfl, by rw [hins]⟩
  · intro i hi
    rcases List.mem_append.mp hi with hi | hi
    · exact hok i hi
    · rw [List.mem_singleton.mp hi]; exact ⟨ha, hm, hc⟩
  · rw [List.dropLast_concat]; exact hlast

/-- `removeLastPop` on a strongly well-formed state whose last instruction is
`OpPop` drops exactly that final `OpPop` entry and leaves a weakly
well-formed state. -/
theorem removeLastPop_wf (c : Compiler) (L : List AbsIns)
    (h : WF2 c L) (hpop : lastInstructionIsPop c = true) :
    ∃ M, L = M ++ [⟨Op.OpPop, []⟩] ∧
      WF1 (removeLastPop c) M ∧
      (removeLastPop c).constants = c.constants ∧
      (removeLastPop c).instructions = flatIns M := by
  obtain ⟨⟨hins, hlast, hok⟩, hprev⟩ := h
  have hpe : c.lastInstruction.opcode = Op.OpPop := by
    rw [lastInstructionIsPop] at hpop
    exact eq_of_beq hpop
  cases hlast with
  | inl hl => rw [hl.2] at hpe; cases hpe
  | inr hr =>
      obtain ⟨M, i, hLM, hopeq, hpos⟩ := hr
      have hmem : i ∈ L := by rw [hLM]; simp
      have hiok := hok i hmem
      have hop : i.op = Op.OpPop := by rw [← hopeq, hpe]
      have hargs : i.args = [] := by
        have h1 := hiok.1
        rw [hop] at h1
        simpa using List.length_eq_zero.mp h1
      have hieq : i = ⟨Op.OpPop, []⟩ := by
        cases i; simp_all
      have htake : (removeLastPop c).instructions = flatIns M := by
        show c.instructions.take c.lastInstruction.position = flatIns M
        rw [hins, hpos, hLM, flatIns_concat, List.take_left]
      refine ⟨M, hieq ▸ hLM, ⟨htake, ?_, ?_⟩, rfl, htake⟩
      · have : L.dropLast = M := by rw [hLM, List.dropLast_concat]
        rw [← this]; exact hprev
      · intro x hx
        exact hok x (by rw [hLM]; exact List.mem_append.mpr (Or.inl hx))

theorem set_append_cons {α : Type} (P : List α) (x b : α) (t : List α) :
    (P ++ x :: t).set P.length b = P ++ b :: t := by
  induction P with
  | nil => rfl
  | cons p ps ih => simpa using ih

/-- Overwriting a same-length segment in place. -/
theorem setBytes_replace : ∀ (Xnew Xold P S : List Nat), Xold.length = Xnew.length →
    setBytes (P ++ (Xold ++ S)) P.length Xnew = P ++ (Xnew ++ S) := by
  intro Xnew
  induction Xnew with
  | nil =>
      intro Xold P S h
      cases List.length_eq_zero.mp h
      rfl
  | cons b bs ih =>
      intro Xold P S h
      cases Xold with
      | nil => cases h
      | cons x xs =>
          show setBytes ((P ++ (x :: (xs ++ S))).set P.length b) (P.length + 1) bs
              = P ++ (b :: bs ++ S)
          rw [set_append_cons]
          have h2 : setBytes ((P ++ [b]) ++ (xs ++ S)) (P ++ [b]).length bs
              = (P ++ [b]) ++ (bs ++ S) := ih xs (P ++ [b]) S (by simpa using h)
          simpa using h2

/-- `lastInstruction` records stay accurate when one entry's operand is
replaced by another of the same opcode and encoded length. -/
theorem lastOK_patch (A : List AbsIns) (j jn : AbsIns) (B : List AbsIns)
    (e : EmittedInstruction) (hop : jn.op = j.op)
    (hlen : (encIns jn).length = (encIns j).length)
    (h : lastOK (A ++ j :: B) e) : lastOK (A ++ jn :: B) e := by
  cases h with
  | inl hl => exact absurd hl.1 (by simp)
  | inr hr =>
      obtain ⟨M, i, heq, hope, hpos⟩ := hr
      rcases B.eq_nil_or_concat with rfl | ⟨B', b, rfl⟩
      · obtain ⟨hMA, hij⟩ := concat_inj (heq.symm : M ++ [i] = A ++ [j])
        refine Or.inr ⟨A, jn, rfl, ?_, ?_⟩
        · rw [hope, hij, ← hop]
        · rw [hpos, hMA]
      · have heq' : (A ++ j :: B') ++ [b] = M ++ [i] := by simpa using heq
        obtain ⟨hM, hib⟩ := concat_inj heq'
        refine Or.inr ⟨A ++ jn :: B', b, by simp, by rw [hope, ← hib], ?_⟩
        rw [hpos, ← hM, flatIns_append, flatIns_append, flatIns_cons, flatIns_cons]
        simp [hlen]

theorem lastOK_dropLast_patch (A : List AbsIns) (j jn : AbsIns) (B : List AbsIns)
    (e : EmittedInstruction) (hop : jn.op = j.op)
    (hlen : (encIns jn).length = (encIns j).length)
    (h : lastOK (A ++ j :: B).dropLast e) : lastOK (A ++ jn :: B).dropLast e := by
  rcases B.eq_nil_or_concat with rfl | ⟨B', b, rfl⟩
  · have h1 : (A ++ [j]).dropLast = A := List.dropLast_concat ..
    have h2 : (A ++ [jn]).dropLast = A := List.dropLast_concat ..
    rw [h2]; rw [h1] at h; exact h
  · simp only [List.concat_eq_append] at h ⊢
    have h1 : (A ++ j :: (B' ++ [b])).dropLast = A ++ j :: B' := by
      have : A ++ j :: (B' ++ [b]) = (A ++ j :: B') ++ [b] := by simp
      rw [this, List.dropLast_concat]
    have h2 : (A ++ jn :: (B' ++ [b])).dropLast = A ++ jn :: B' := by
      have : A ++ jn :: (B' ++ [b]) = (A ++ jn :: B') ++ [b] := by simp
      rw [this, List.dropLast_concat]
    rw [h2]; rw [h1] at h
    exact lastOK_patch A j jn B' e hop hlen h

theorem opOfByte_opByte (op : Op) : opOfByte (opByte op) = some op := by
  cases op <;> rfl

theorem instrOK_mono (i : AbsIns) (n n' : Nat) (h : instrOK i n) (hle : n ≤ n') :
    instrOK i n' :=
  ⟨h.1, h.2.1, fun hc a ha => lt_of_lt_of_le (h.2.2 hc a ha) hle⟩

/-- `changeOperand` at the byte offset of a jump entry patches exactly that
entry's operand, touching no other field of the state. -/
theorem changeOperand_wf1 (c : Compiler) (A : List AbsIns) (j : AbsIns)
    (B : List AbsIns) (x : Nat)
    (h : WF1 c (A ++ j :: B))
    (hj : j.op = Op.OpJumpNotTruthy ∨ j.op = Op.OpJump) :
    WF1 (changeOperand c (flatIns A).length x) (A ++ ⟨j.op, [x]⟩ :: B) ∧
    (changeOperand c (flatIns A).length x).constants = c.constants ∧
    (changeOperand c (flatIns A).length x).lastInstruction = c.lastInstruction ∧
    (changeOperand c (flatIns A).length x).previousInstruction = c.previousInstruction := by
  obtain ⟨hins, hlast, hok⟩ := h
  have hwid : operandWidths j.op = [2] := by
    rcases hj with hj | hj <;> rw [hj] <;> rfl
  have hjok : instrOK j c.constants.length := hok j (by simp)
  have harity : j.args.length = 1 := by rw [hjok.1, hwid]; rfl
  obtain ⟨a, ha⟩ := List.length_eq_one.mp harity
  have hbytes : c.instructions = flatIns A ++ (encIns j ++ flatIns B) := by
    rw [hins, flatIns_append, flatIns_cons]
  have hget : c.instructions.getD (flatIns A).length 0 = opByte j.op := by
    rw [hbytes, List.getD_append_right _ _ _ _ (le_refl _), Nat.sub_self, encIns_cons]
    rfl
  have hlenj : (encIns j).length = 3 := by
    rw [encIns_cons, hwid, ha]; rfl
  have hlennew : (Make j.op [x]).length = 3 := by
    unfold Make; rw [hwid]; rfl
  have hchange : changeOperand c (flatIns A).length x
      = replaceInstruction c (flatIns A).length (Make j.op [x]) := by
    unfold changeOperand
    rw [hget, opOfByte_opByte]
  have hnewenc : encIns ⟨j.op, [x]⟩ = Make j.op [x] := rfl
  have hinsnew : (changeOperand c (flatIns A).length x).instructions
      = flatIns (A ++ (⟨j.op, [x]⟩ : AbsIns) :: B) := by
    rw [hchange]
    show setBytes c.instructions (flatIns A).length (Make j.op [x]) = _
    rw [hbytes, setBytes_replace (Make j.op [x]) (encIns j) (flatIns A) (flatIns B)
      (by rw [hlenj, hlennew]), flatIns_append, flatIns_cons, hnewenc]
  have hfields : (changeOperand c (flatIns A).length x).constants = c.constants ∧
      (changeOperand c (flatIns A).length x).lastInstruction = c.lastInstruction ∧
      (changeOperand c (flatIns A).length x).previousInstruction = c.previousInstruction := by
    rw [hchange]; exact ⟨rfl, rfl, rfl⟩
  refine ⟨⟨hinsnew, ?_, ?_⟩, hfields⟩
  · rw [hfields.2.1]
    exact lastOK_patch A j ⟨j.op, [x]⟩ B c.lastInstruction rfl
      (by rw [hlenj]; exact hlennew) hlast
  · intro i hi
    rw [hfields.1]
    rcases List.mem_append.mp hi with hi | hi
    · exact hok i (List.mem_append.mpr (Or.inl hi))
    · rcases List.mem_cons.mp hi with hi | hi
      · rw [hi]
        refine ⟨by rw [hwid]; rfl, hjok.2.1, ?_⟩
        intro hco
        exfalso
        rw [hco] at hj
        rcases hj with hj | hj <;> cases hj
      · exact hok i (List.mem_append.mpr (Or.inr (List.mem_cons.mpr (Or.inr hi))))

theorem changeOperand_wf2 (c : Compiler) (A : List AbsIns) (j : AbsIns)
    (B : List AbsIns) (x : Nat)
    (h : WF2 c (A ++ j :: B))
    (hj : j.op = Op.OpJumpNotTruthy ∨ j.op = Op.OpJump) :
    WF2 (changeOperand c (flatIns A).length x) (A ++ ⟨j.op, [x]⟩ :: B) ∧
    (changeOperand c (flatIns A).length x).constants = c.constants := by
  obtain ⟨h1, hprev⟩ := h
  obtain ⟨hw, hc, _, hp⟩ := changeOperand_wf1 c A j B x h1 hj
  have hwid : operandWidths j.op = [2] := by
    rcases hj with hj | hj <;> rw [hj] <;> rfl
  have harity : j.args.length = 1 := by rw [(h1.2.2 j (by simp)).1, hwid]; rfl
  obtain ⟨a, ha⟩ := List.length_eq_one.mp harity
  have hlenj : (encIns j).length = 3 := by rw [encIns_cons, hwid, ha]; rfl
  have hlennew : (encIns ⟨j.op, [x]⟩).length = 3 := by
    rw [encIns_cons, hwid]; rfl
  refine ⟨⟨hw, ?_⟩, hc⟩
  rw [hp]
  exact lastOK_dropLast_patch A j ⟨j.op, [x]⟩ B c.previousInstruction rfl
    (by rw [hlenj, hlennew]) hprev

theorem lastOK_concat (Y : List AbsIns) (i : AbsIns) (e : EmittedInstruction)
    (h : lastOK (Y ++ [i]) e) : e.opcode = i.op ∧ e.position = (flatIns Y).length := by
  cases h with
  | inl hl => exact absurd hl.1 (by simp)
  | inr hr =>
      obtain ⟨M, i', heq, hop, hpos⟩ := hr
      obtain ⟨hM, hi⟩ := concat_inj heq.symm
      exact ⟨by rw [hop, ← hi], by rw [hpos, hM]⟩

theorem eq_dropLast_concat_of_getLast {α : Type} {l : List α} {a : α}
    (h : l.getLast? = some a) : l = l.dropLast ++ [a] := by
  cases l with
  | nil => cases h
  | cons x xs =>
      have hne : x :: xs ≠ [] := by simp
      rw [List.getLast?_eq_getLast _ hne] at h
      have := List.dropLast_concat_getLast hne
      rw [Option.some_inj.mp h] at this
      exact this.symm

theorem flatIns_length_append (X Y : List AbsIns) :
    (flatIns (X ++ Y)).length = (flatIns X).length + (flatIns Y).length := by
  rw [flatIns_append, List.length_append]

theorem encIns_jump_len (op : Op) (n : Nat) (h : operandWidths op = [2]) :
    (encIns ⟨op, [n]⟩).length = 3 := by
  simp [encIns_cons, h, encW]

/-- The `if lastInstructionIsPop { removeLastPop }` peephole step of the
`IfExpression` case: starting from a strongly well-formed state whose
abstract program is `X ++ Mc` with `X` ending in a non-`OpPop` entry (the
freshly emitted jump), it yields a weakly well-formed state over `X ++ Mc4`,
where `Mc4` is `Mc` with a trailing `OpPop` removed if one is present. -/
theorem strip_wf (c3 : Compiler) (X Xp : List AbsIns) (xj : AbsIns) (Mc : List AbsIns)
    (hw3 : WF2 c3 (X ++ Mc)) (hX : X = Xp ++ [xj]) (hxj : xj.op ≠ Op.OpPop) :
    ∃ Mc4,
      ((Mc.getLast? = some ⟨Op.OpPop, []⟩ ∧ Mc4 = Mc.dropLast) ∨
       (¬ Mc.getLast? = some ⟨Op.OpPop, []⟩ ∧ Mc4 = Mc)) ∧
      WF1 (if lastInstructionIsPop c3 then removeLastPop c3 else c3) (X ++ Mc4) ∧
      (if lastInstructionIsPop c3 then removeLastPop c3 else c3).constants = c3.constants := by
  cases hpop : lastInstructionIsPop c3 with
  | true =>
      simp only [hpop, eq_self_iff_true, if_true]
      obtain ⟨M', heq, hw4, hc4, _⟩ := removeLastPop_wf c3 (X ++ Mc) hw3 hpop
      rcases Mc.eq_nil_or_concat with rfl | ⟨Mc', mb, rfl⟩
      · exfalso
        rw [List.append_nil, hX] at heq
        obtain ⟨_, hj⟩ := concat_inj heq
        exact hxj (by rw [hj])
      · simp only [List.concat_eq_append] at heq ⊢
        rw [← List.append_assoc] at heq
        obtain ⟨hM, hmb⟩ := concat_inj heq
        refine ⟨Mc', Or.inl ⟨by rw [List.getLast?_concat, hmb], by rw [List.dropLast_concat]⟩, ?_, hc4⟩
        rw [hM]; exact hw4
  | false =>
      simp only [hpop, Bool.false_eq_true, if_false]
      refine ⟨Mc, Or.inr ⟨?_, rfl⟩, hw3.1, trivial⟩
      intro hlastpop
      have hMc : Mc = Mc.dropLast ++ [⟨Op.OpPop, []⟩] := eq_dropLast_concat_of_getLast hlastpop
      have hlist : X ++ Mc = (X ++ Mc.dropLast) ++ [⟨Op.OpPop, []⟩] := by
        rw [List.append_assoc, ← hMc]
      have hop := (lastOK_concat (X ++ Mc.dropLast) ⟨Op.OpPop, []⟩ c3.lastInstruction
        (hlist ▸ hw3.1.2.1)).1
      rw [lastInstructionIsPop, hop] at hpop
      simp at hpop

/-- The code layout `Compile` produces for an `IfExpression`, starting from a
state `c` with abstract program `L` and ending in state `c'`:

* `M0` is the condition's code;
* an `OpJumpNotTruthy` follows, emitted with placeholder operand 9999 and
  finally patched to `afterCons`, the byte offset immediately after the
  `OpJump`;
* `Mc` is the consequence block's raw code and `Mc4` the same code with a
  trailing `OpPop` entry removed when one is present;
* an `OpJump` follows, emitted with placeholder 9999 and finally patched to
  `afterAlt`, the byte offset after the alternative (the end of the emitted
  code);
* `Ma` is the single `OpNull` when there is no alternative, else the
  alternative block's code `MaRaw` with a trailing `OpPop` removed; the
  alternative is compiled after the first patch, against a buffer where the
  `OpJumpNotTruthy` already holds `afterCons` and the `OpJump` still holds
  the placeholder. -/
def IfShape (cond : Expr) (consequence : Block) (alt : AltBlock)
    (c c' : Compiler) (L : List AbsIns) : Prop :=
  ∃ (M0 Mc Mc4 Ma : List AbsIns) (d : List Object) (c1 : Compiler)
    (afterCons afterAlt : Nat),
    compileExpr c cond = .ok c1 ∧
    WF1 c1 (L ++ M0) ∧
    (∃ c3, compileBlock (emit c1 Op.OpJumpNotTruthy [9999]).1 consequence = .ok c3 ∧
        c3.instructions = flatIns ((L ++ M0 ++ [⟨Op.OpJumpNotTruthy, [9999]⟩]) ++ Mc)) ∧
    ((Mc.getLast? = some ⟨Op.OpPop, []⟩ ∧ Mc4 = Mc.dropLast) ∨
     (¬ Mc.getLast? = some ⟨Op.OpPop, []⟩ ∧ Mc4 = Mc)) ∧
    afterCons = (flatIns (L ++ M0)).length + 3 + (flatIns Mc4).length + 3 ∧
    afterAlt = afterCons + (flatIns Ma).length ∧
    afterAlt = c'.instructions.length ∧
    (alt = .noneB → Ma = [⟨Op.OpNull, []⟩]) ∧
    (∀ b, alt = .someB b → ∃ MaRaw c6 c7,
        compileBlock c6 b = .ok c7 ∧
        c6.instructions = flatIns (L ++ M0 ++ [⟨Op.OpJumpNotTruthy, [afterCons]⟩]
            ++ Mc4 ++ [⟨Op.OpJump, [9999]⟩]) ∧
        c7.instructions = c6.instructions ++ flatIns MaRaw ∧
        ((MaRaw.getLast? = some ⟨Op.OpPop, []⟩ ∧ Ma = MaRaw.dropLast) ∨
         (¬ MaRaw.getLast? = some ⟨Op.OpPop, []⟩ ∧ Ma = MaRaw))) ∧
    WF1 c' (L ++ M0 ++ [⟨Op.OpJumpNotTruthy, [afterCons]⟩] ++ Mc4
        ++ [⟨Op.OpJump, [afterAlt]⟩] ++ Ma) ∧
    c'.constants = c.constants ++ d

/-- Walk of the `IfExpression` case of `Compile`, parameterised by the
specifications of the recursive calls it makes. -/
theorem ifE_walk (cond : Expr) (consequence : Block) (alt : AltBlock)
    (c : Compiler) (L : List AbsIns) (c' : Compiler)
    (condSpec : ∀ cc LL, WF1 cc LL → ∀ cc', compileExpr cc cond = .ok cc' →
        ∃ M dd, WF1 cc' (LL ++ M) ∧ cc'.constants = cc.constants ++ dd)
    (consSpec : ∀ cc LL, WF2 cc LL → ∀ cc', compileBlock cc consequence = .ok cc' →
        ∃ M dd, WF2 cc' (LL ++ M) ∧ cc'.constants = cc.constants ++ dd)
    (altSpec : ∀ b, alt = .someB b → ∀ cc LL, WF2 cc LL →
        ∀ cc', compileBlock cc b = .ok cc' →
        ∃ M dd, WF2 cc' (LL ++ M) ∧ cc'.constants = cc.constants ++ dd)
    (hwf : WF1 c L)
    (hok : compileExpr c (.ifE cond consequence alt) = .ok c') :
    IfShape cond consequence alt c c' L := by
  cases alt with
  | noneB =>
    rw [compileExpr] at hok
    cases h1 : compileExpr c cond with
    | error e => simp only [h1] at hok; cases hok
    | ok c1 =>
      simp only [h1] at hok
      obtain ⟨M0, d0, hw1, hd0⟩ := condSpec c L hwf c1 h1
      obtain ⟨hw2, hpos2, hc2, hins2⟩ := emit_wf c1 (L ++ M0) .OpJumpNotTruthy [9999]
        hw1 rfl (by decide) (fun h => absurd h (by decide))
      cases h3 : compileBlock (emit c1 Op.OpJumpNotTruthy [9999]).1 consequence with
      | error e => simp only [h3] at hok; cases hok
      | ok c3 =>
        simp only [h3] at hok
        obtain ⟨Mc, dc, hw3, hdc⟩ := consSpec _ _ hw2 c3 h3
        obtain ⟨Mc4, hstrip, hw4, hc4⟩ := strip_wf c3
          ((L ++ M0) ++ [⟨Op.OpJumpNotTruthy, [9999]⟩]) (L ++ M0)
          ⟨Op.OpJumpNotTruthy, [9999]⟩ Mc hw3 rfl (by decide)
        set c4e := if lastInstructionIsPop c3 = true then removeLastPop c3 else c3 with hc4edef
        obtain ⟨hw5, hpos5, hc5, hins5⟩ := emit_wf c4e _ .OpJump [9999] hw4 rfl
          (by decide) (fun h => absurd h (by decide))
        rw [hpos2, hpos5] at hok
        set r51 := (emit c4e Op.OpJump [9999]).1 with hr51def
        set tC := r51.instructions.length with htCdef
        have hlisteq : ((((L ++ M0) ++ [(⟨Op.OpJumpNotTruthy, [9999]⟩ : AbsIns)]) ++ Mc4)
              ++ [(⟨Op.OpJump, [9999]⟩ : AbsIns)])
            = (L ++ M0) ++ (⟨Op.OpJumpNotTruthy, [9999]⟩ : AbsIns)
              :: (Mc4 ++ [(⟨Op.OpJump, [9999]⟩ : AbsIns)]) := by simp
        obtain ⟨hw6, hc6c⟩ := changeOperand_wf2 r51 (L ++ M0)
          ⟨Op.OpJumpNotTruthy, [9999]⟩ (Mc4 ++ [⟨Op.OpJump, [9999]⟩])
          tC (hlisteq ▸ hw5) (Or.inl rfl)
        dsimp only at hw6
        set c6 := changeOperand r51 (flatIns (L ++ M0)).length tC with hc6def
        obtain ⟨hw7, hpos7, hc7, hins7⟩ := emit_wf c6 _ .OpNull [] hw6.1 rfl
          (by decide) (fun h => absurd h (by decide))
        set c7n := (emit c6 Op.OpNull []).1 with hc7ndef
        set tA := c7n.instructions.length with htAdef
        have e1 : (encIns (⟨Op.OpJumpNotTruthy, [9999]⟩ : AbsIns)).length = 3 :=
          encIns_jump_len Op.OpJumpNotTruthy 9999 rfl
        have e2 : (encIns (⟨Op.OpJumpNotTruthy, [tC]⟩ : AbsIns)).length = 3 :=
          encIns_jump_len Op.OpJumpNotTruthy tC rfl
        have e3 : (encIns (⟨Op.OpJump, [9999]⟩ : AbsIns)).length = 3 :=
          encIns_jump_len Op.OpJump 9999 rfl
        have hposeq : (flatIns (L ++ M0 ++ [(⟨Op.OpJumpNotTruthy, [9999]⟩ : AbsIns)] ++ Mc4)).length
            = (flatIns ((L ++ M0) ++ (⟨Op.OpJumpNotTruthy, [tC]⟩ : AbsIns) :: Mc4)).length := by
          simp only [flatIns_append, flatIns_cons, flatIns_singleton, flatIns_nil,
            List.length_append, List.length_nil, e1, e2]
          omega
        rw [hposeq] at hok
        have hlist2 : ((L ++ M0) ++ (⟨Op.OpJumpNotTruthy, [tC]⟩ : AbsIns)
              :: (Mc4 ++ [(⟨Op.OpJump, [9999]⟩ : AbsIns)]) ++ [(⟨Op.OpNull, []⟩ : AbsIns)])
            = ((L ++ M0) ++ (⟨Op.OpJumpNotTruthy, [tC]⟩ : AbsIns) :: Mc4)
              ++ (⟨Op.OpJump, [9999]⟩ : AbsIns) :: [(⟨Op.OpNull, []⟩ : AbsIns)] := by simp
        obtain ⟨hwF, hcF, hlF, hpF⟩ := changeOperand_wf1 c7n
          ((L ++ M0) ++ (⟨Op.OpJumpNotTruthy, [tC]⟩ : AbsIns) :: Mc4)
          ⟨Op.OpJump, [9999]⟩ [⟨Op.OpNull, []⟩] tA (hlist2 ▸ hw7.1) (Or.inr rfl)
        dsimp only at hwF
        have e4 : (encIns (⟨Op.OpJump, [tA]⟩ : AbsIns)).length = 3 :=
          encIns_jump_len Op.OpJump tA rfl
        have e5 : (encIns (⟨Op.OpNull, []⟩ : AbsIns)).length = 1 := rfl
        have e6 : (Make Op.OpJump [9999]).length = 3 := rfl
        have e7 : (Make Op.OpNull []).length = 1 := rfl
        have htCval : tC = (flatIns (L ++ M0)).length + 3 + (flatIns Mc4).length + 3 := by
          rw [htCdef, hins5]
          simp only [flatIns_append, flatIns_singleton, flatIns_nil, List.length_append,
            List.length_nil, e1, e6]
        have htAval : tA = tC + (flatIns [(⟨Op.OpNull, []⟩ : AbsIns)]).length := by
          rw [htAdef, hins7]
          have h' := htCval
          simp only [flatIns_append, List.length_append] at h'
          simp only [flatIns_append, flatIns_cons, flatIns_singleton, flatIns_nil,
            List.length_append, List.length_nil, e2, e3, e5, e7]
          omega
        injection hok with hceq
        subst hceq
        refine ⟨M0, Mc, Mc4, [⟨Op.OpNull, []⟩], d0 ++ dc, c1, tC, tA,
          h1, hw1, ⟨c3, h3, hw3.1.1⟩, hstrip, htCval, htAval, ?_, ?_, ?_, ?_, ?_⟩
        · rw [hwF.1]
          simp only [flatIns_append, flatIns_cons, flatIns_singleton, flatIns_nil,
            List.length_append, List.length_nil, e2, e4, e5] at htCval htAval ⊢
          omega
        · intro _; rfl
        · intro b hb; cases hb
        · have heq : (((L ++ M0) ++ (⟨Op.OpJumpNotTruthy, [tC]⟩ : AbsIns) :: Mc4)
              ++ (⟨Op.OpJump, [tA]⟩ : AbsIns) :: [(⟨Op.OpNull, []⟩ : AbsIns)])
              = L ++ M0 ++ [(⟨Op.OpJumpNotTruthy, [tC]⟩ : AbsIns)] ++ Mc4
                ++ [(⟨Op.OpJump, [tA]⟩ : AbsIns)] ++ [(⟨Op.OpNull, []⟩ : AbsIns)] := by simp
          exact heq ▸ hwF
        · rw [hcF, hc7, hc6c, hc5, hc4, hdc, hc2, hd0, List.append_assoc]
  | someB b =>
    rw [compileExpr] at hok
    cases h1 : compileExpr c cond with
    | error e => simp only [h1] at hok; cases hok
    | ok c1 =>
      simp only [h1] at hok
      obtain ⟨M0, d0, hw1, hd0⟩ := condSpec c L hwf c1 h1
      obtain ⟨hw2, hpos2, hc2, hins2⟩ := emit_wf c1 (L ++ M0) .OpJumpNotTruthy [9999]
        hw1 rfl (by decide) (fun h => absurd h (by decide))
      cases h3 : compileBlock (emit c1 Op.OpJumpNotTruthy [9999]).1 consequence with
      | error e => simp only [h3] at hok; cases hok
      | ok c3 =>
        simp only [h3] at hok
        obtain ⟨Mc, dc, hw3, hdc⟩ := consSpec _ _ hw2 c3 h3
        obtain ⟨Mc4, hstrip, hw4, hc4⟩ := strip_wf c3
          ((L ++ M0) ++ [⟨Op.OpJumpNotTruthy, [9999]⟩]) (L ++ M0)
          ⟨Op.OpJumpNotTruthy, [9999]⟩ Mc hw3 rfl (by decide)
        set c4e := if lastInstructionIsPop c3 = true then removeLastPop c3 else c3 with hc4edef
        obtain ⟨hw5, hpos5, hc5, hins5⟩ := emit_wf c4e _ .OpJump [9999] hw4 rfl
          (by decide) (fun h => absurd h (by decide))
        rw [hpos2, hpos5] at hok
        set r51 := (emit c4e Op.OpJump [9999]).1 with hr51def
        set tC := r51.instructions.length with htCdef
        have hlisteq : ((((L ++ M0) ++ [(⟨Op.OpJumpNotTruthy, [9999]⟩ : AbsIns)]) ++ Mc4)
              ++ [(⟨Op.OpJump, [9999]⟩ : AbsIns)])
            = (L ++ M0) ++ (⟨Op.OpJumpNotTruthy, [9999]⟩ : AbsIns)
              :: (Mc4 ++ [(⟨Op.OpJump, [9999]⟩ : AbsIns)]) := by simp
        obtain ⟨hw6, hc6c⟩ := changeOperand_wf2 r51 (L ++ M0)
          ⟨Op.OpJumpNotTruthy, [9999]⟩ (Mc4 ++ [⟨Op.OpJump, [9999]⟩])
          tC (hlisteq ▸ hw5) (Or.inl rfl)
        dsimp only at hw6
        set c6 := changeOperand r51 (flatIns (L ++ M0)).length tC with hc6def
        cases h7 : compileBlock c6 b with
        | error e => simp only [h7] at hok; cases hok
        | ok c7 =>
          simp only [h7] at hok
          obtain ⟨MaRaw, da, hw7a, hda⟩ := altSpec b rfl c6 _ hw6 c7 h7
          have hX2eq : ((L ++ M0) ++ (⟨Op.OpJumpNotTruthy, [tC]⟩ : AbsIns)
                :: (Mc4 ++ [(⟨Op.OpJump, [9999]⟩ : AbsIns)]))
              = (((L ++ M0) ++ (⟨Op.OpJumpNotTruthy, [tC]⟩ : AbsIns) :: Mc4)
                ++ [(⟨Op.OpJump, [9999]⟩ : AbsIns)]) := by simp
          obtain ⟨Ma, hstripA, hw8, hc8⟩ := strip_wf c7
            ((L ++ M0) ++ (⟨Op.OpJumpNotTruthy, [tC]⟩ : AbsIns)
              :: (Mc4 ++ [(⟨Op.OpJump, [9999]⟩ : AbsIns)]))
            ((L ++ M0) ++ (⟨Op.OpJumpNotTruthy, [tC]⟩ : AbsIns) :: Mc4)
            ⟨Op.OpJump, [9999]⟩ MaRaw hw7a hX2eq (by decide)
          set c8e := if lastInstructionIsPop c7 = true then removeLastPop c7 else c7 with hc8edef
          set tA := c8e.instructions.length with htAdef
          have e1 : (encIns (⟨Op.OpJumpNotTruthy, [9999]⟩ : AbsIns)).length = 3 :=
            encIns_jump_len Op.OpJumpNotTruthy 9999 rfl
          have e2 : (encIns (⟨Op.OpJumpNotTruthy, [tC]⟩ : AbsIns)).length = 3 :=
            encIns_jump_len Op.OpJumpNotTruthy tC rfl
          have e3 : (encIns (⟨Op.OpJump, [9999]⟩ : AbsIns)).length = 3 :=
            encIns_jump_len Op.OpJump 9999 rfl
          have e4 : (encIns (⟨Op.OpJump, [tA]⟩ : AbsIns)).length = 3 :=
            encIns_jump_len Op.OpJump tA rfl
          have e6 : (Make Op.OpJump [9999]).length = 3 := rfl
          have hposeq : (flatIns (L ++ M0 ++ [(⟨Op.OpJumpNotTruthy, [9999]⟩ : AbsIns)] ++ Mc4)).length
              = (flatIns ((L ++ M0) ++ (⟨Op.OpJumpNotTruthy, [tC]⟩ : AbsIns) :: Mc4)).length := by
            simp only [flatIns_append, flatIns_cons, flatIns_singleton, flatIns_nil,
              List.length_append, List.length_nil, e1, e2]
            omega
          rw [hposeq] at hok
          have hlist2 : (((L ++ M0) ++ (⟨Op.OpJumpNotTruthy, [tC]⟩ : AbsIns)
                :: (Mc4 ++ [(⟨Op.OpJump, [9999]⟩ : AbsIns)])) ++ Ma)
              = ((L ++ M0) ++ (⟨Op.OpJumpNotTruthy, [tC]⟩ : AbsIns) :: Mc4)
                ++ (⟨Op.OpJump, [9999]⟩ : AbsIns) :: Ma := by simp
          obtain ⟨hwF, hcF, hlF, hpF⟩ := changeOperand_wf1 c8e
            ((L ++ M0) ++ (⟨Op.OpJumpNotTruthy, [tC]⟩ : AbsIns) :: Mc4)
            ⟨Op.OpJump, [9999]⟩ Ma tA (hlist2 ▸ hw8) (Or.inr rfl)
          dsimp only at hwF
          have htCval : tC = (flatIns (L ++ M0)).length + 3 + (flatIns Mc4).length + 3 := by
            rw [htCdef, hins5]
            simp only [flatIns_append, flatIns_singleton, flatIns_nil, List.length_append,
              List.length_nil, e1, e6]
          have htAval : tA = tC + (flatIns Ma).length := by
            rw [htAdef, hw8.1]
            have h' := htCval
            simp only [flatIns_append, List.length_append] at h'
            simp only [flatIns_append, flatIns_cons, flatIns_singleton, flatIns_nil,
              List.length_append, List.length_nil, e2, e3]
            omega
          injection hok with hceq
          subst hceq
          refine ⟨M0, Mc, Mc4, Ma, d0 ++ (dc ++ da), c1, tC, tA,
            h1, hw1, ⟨c3, h3, hw3.1.1⟩, hstrip, htCval, htAval, ?_, ?_, ?_, ?_, ?_⟩
          · rw [hwF.1]
            have h' := htCval
            simp only [flatIns_append, List.length_append] at h'
            simp only [flatIns_append, flatIns_cons, flatIns_singleton, flatIns_nil,
              List.length_append, List.length_nil, e2, e4] at htAval ⊢
            omega
          · intro hb; cases hb
          · intro b' hb
            cases hb
            refine ⟨MaRaw, c6, c7, h7, ?_, ?_, hstripA⟩
            · rw [hw6.1.1]
              have : ((L ++ M0) ++ (⟨Op.OpJumpNotTruthy, [tC]⟩ : AbsIns)
                    :: (Mc4 ++ [(⟨Op.OpJump, [9999]⟩ : AbsIns)]))
                  = L ++ M0 ++ [(⟨Op.OpJumpNotTruthy, [tC]⟩ : AbsIns)] ++ Mc4
                    ++ [(⟨Op.OpJump, [9999]⟩ : AbsIns)] := by simp
              rw [this]
            · rw [hw7a.1.1, hw6.1.1, flatIns_append]
          · have heq : (((L ++ M0) ++ (⟨Op.OpJumpNotTruthy, [tC]⟩ : AbsIns) :: Mc4)
                ++ (⟨Op.OpJump, [tA]⟩ : AbsIns) :: Ma)
                = L ++ M0 ++ [(⟨Op.OpJumpNotTruthy, [tC]⟩ : AbsIns)] ++ Mc4
                  ++ [(⟨Op.OpJump, [tA]⟩ : AbsIns)] ++ Ma := by simp
            exact heq ▸ hwF
          · rw [hcF, hc8, hda, hc6c, hc5, hc4, hdc, hc2, hd0]
            simp [List.append_assoc]

/-! ## The compiler invariant

Mutual structural induction over the AST: compiling any node from a
well-formed state appends abstract instructions and extends the constant pool.
Expressions guarantee the weak invariant (an inner `if` can leave a stale
`previousInstruction` record); statements and blocks restore the strong one.
-/

mutual

theorem compileExpr_wf : ∀ (e : Expr) (c : Compiler) (L : List AbsIns), WF1 c L →
    ∀ c', compileExpr c e = .ok c' →
    ∃ M d, WF1 c' (L ++ M) ∧ c'.constants = c.constants ++ d
  | .identE _, c, L, hwf, c', hok => by
      rw [compileExpr] at hok
      cases hok
      exact ⟨[], [], by simpa using hwf, by simp⟩
  | .intLit v, c, L, hwf, c', hok => by
      rw [compileExpr] at hok
      injection hok with hceq
      subst hceq
      have hwf1 : WF1 { c with constants := c.constants ++ [Object.integer v] } L :=
        ⟨hwf.1, hwf.2.1, fun i hi => instrOK_mono i _ _ (hwf.2.2 i hi) (by simp)⟩
      obtain ⟨hw, _, hc, _⟩ := emit_wf _ L .OpConstant [c.constants.length] hwf1 rfl
        (by decide) (by intro _ a ha; rw [List.mem_singleton.mp ha]; simp)
      exact ⟨[⟨.OpConstant, [c.constants.length]⟩], [Object.integer v], hw.1, hc⟩
  | .boolLit value, c, L, hwf, c', hok => by
      rw [compileExpr] at hok
      cases value with
      | true =>
          simp only [if_true] at hok
          injection hok with hceq
          subst hceq
          obtain ⟨hw, _, hc, _⟩ := emit_wf c L .OpTrue [] hwf rfl (by decide)
            (fun h => absurd h (by decide))
          exact ⟨[⟨.OpTrue, []⟩], [], hw.1, by rw [hc, List.append_nil]⟩
      | false =>
          simp only [Bool.false_eq_true, if_false] at hok
          injection hok with hceq
          subst hceq
          obtain ⟨hw, _, hc, _⟩ := emit_wf c L .OpFalse [] hwf rfl (by decide)
            (fun h => absurd h (by decide))
          exact ⟨[⟨.OpFalse, []⟩], [], hw.1, by rw [hc, List.append_nil]⟩
  | .prefixE op right, c, L, hwf, c', hok => by
      rw [compileExpr] at hok
      cases h1 : compileExpr c right with
      | error e => simp only [h1] at hok; cases hok
      | ok c1 =>
          simp only [h1] at hok
          obtain ⟨M1, d1, hw1, hd1⟩ := compileExpr_wf right c L hwf c1 h1
          split at hok
          · injection hok with hceq
            subst hceq
            obtain ⟨hw, _, hc, _⟩ := emit_wf c1 (L ++ M1) .OpBang [] hw1 rfl (by decide)
              (fun h => absurd h (by decide))
            exact ⟨M1 ++ [⟨.OpBang, []⟩], d1,
              by rw [← List.append_assoc]; exact hw.1, by rw [hc, hd1]⟩
          · split at hok
            · injection hok with hceq
              subst hceq
              obtain ⟨hw, _, hc, _⟩ := emit_wf c1 (L ++ M1) .OpMinus [] hw1 rfl (by decide)
                (fun h => absurd h (by decide))
              exact ⟨M1 ++ [⟨.OpMinus, []⟩], d1,
                by rw [← List.append_assoc]; exact hw.1, by rw [hc, hd1]⟩
            · cases hok
  | .infixE op left right, c, L, hwf, c', hok => by
      rw [compileExpr] at hok
      split at hok
      · -- the "<" case: right operand first
        cases h1 : compileExpr c right with
        | error e => simp only [h1] at hok; cases hok
        | ok c1 =>
            simp only [h1] at hok
            obtain ⟨M1, d1, hw1, hd1⟩ := compileExpr_wf right c L hwf c1 h1
            cases h2 : compileExpr c1 left with
            | error e => simp only [h2] at hok; cases hok
            | ok c2 =>
                simp only [h2] at hok
                obtain ⟨M2, d2, hw2, hd2⟩ := compileExpr_wf left c1 (L ++ M1) hw1 c2 h2
                injection hok with hceq
                subst hceq
                obtain ⟨hw, _, hc, _⟩ := emit_wf c2 ((L ++ M1) ++ M2) .OpGreaterThan []
                  hw2 rfl (by decide) (fun h => absurd h (by decide))
                refine ⟨M1 ++ M2 ++ [⟨.OpGreaterThan, []⟩], d1 ++ d2, ?_, ?_⟩
                · have heq : (((L ++ M1) ++ M2) ++ [(⟨Op.OpGreaterThan, []⟩ : AbsIns)])
                      = L ++ (M1 ++ M2 ++ [(⟨Op.OpGreaterThan, []⟩ : AbsIns)]) := by simp
                  exact heq ▸ hw.1
                · rw [hc, hd2, hd1, List.append_assoc]
      · cases h1 : compileExpr c left with
        | error e => simp only [h1] at hok; cases hok
        | ok c1 =>
            simp only [h1] at hok
            obtain ⟨M1, d1, hw1, hd1⟩ := compileExpr_wf left c L hwf c1 h1
            cases h2 : compileExpr c1 right with
            | error e => simp only [h2] at hok; cases hok
            | ok c2 =>
                simp only [h2] at hok
                obtain ⟨M2, d2, hw2, hd2⟩ := compileExpr_wf right c1 (L ++ M1) hw1 c2 h2
                have hfin : ∀ (o : Op), o ∈ emittedOps → operandWidths o = [] →
                    c' = (emit c2 o []).1 →
                    ∃ M d, WF1 c' (L ++ M) ∧ c'.constants = c.constants ++ d := by
                  intro o hm har hceq
                  subst hceq
                  obtain ⟨hw, _, hc, _⟩ := emit_wf c2 ((L ++ M1) ++ M2) o [] hw2
                    (by rw [har]) hm (by intro _ a ha; exact absurd ha (by simp))
                  refine ⟨M1 ++ M2 ++ [⟨o, []⟩], d1 ++ d2, ?_, ?_⟩
                  · have heq : (((L ++ M1) ++ M2) ++ [(⟨o, []⟩ : AbsIns)])
                        = L ++ (M1 ++ M2 ++ [(⟨o, []⟩ : AbsIns)]) := by simp
                    exact heq ▸ hw.1
                  · rw [hc, hd2, hd1, List.append_assoc]
                split at hok
                · exact hfin .OpAdd (by decide) rfl (Except.ok.inj hok).symm
                · split at hok
                  · exact hfin .OpSub (by decide) rfl (Except.ok.inj hok).symm
                  · split at hok
                    · exact hfin .OpMul (by decide) rfl (Except.ok.inj hok).symm
                    · split at hok
                      · exact hfin .OpDiv (by decide) rfl (Except.ok.inj hok).symm
                      · split at hok
                        · exact hfin .OpGreaterThan (by decide) rfl (Except.ok.inj hok).symm
                        · split at hok
                          · exact hfin .OpEqual (by decide) rfl (Except.ok.inj hok).symm
                          · split at hok
                            · exact hfin .OpNotEqual (by decide) rfl (Except.ok.inj hok).symm
                            · cases hok
  | .ifE cond consequence .noneB, c, L, hwf, c', hok => by
      obtain ⟨M0, Mc, Mc4, Ma, d, c1, afterCons, afterAlt, _, _, _, _, _, _, _, _, _, hwff, hcc⟩ :=
        ifE_walk cond consequence .noneB c L c'
          (compileExpr_wf cond) (compileBlock_wf consequence)
          (fun b hb => nomatch hb) hwf hok
      refine ⟨M0 ++ [⟨Op.OpJumpNotTruthy, [afterCons]⟩] ++ Mc4
        ++ [⟨Op.OpJump, [afterAlt]⟩] ++ Ma, d, ?_, hcc⟩
      have heq : (L ++ M0 ++ [(⟨Op.OpJumpNotTruthy, [afterCons]⟩ : AbsIns)] ++ Mc4
            ++ [(⟨Op.OpJump, [afterAlt]⟩ : AbsIns)] ++ Ma)
          = L ++ (M0 ++ [(⟨Op.OpJumpNotTruthy, [afterCons]⟩ : AbsIns)] ++ Mc4
            ++ [(⟨Op.OpJump, [afterAlt]⟩ : AbsIns)] ++ Ma) := by simp
      exact heq ▸ hwff
  | .ifE cond consequence (.someB b), c, L, hwf, c', hok => by
      obtain ⟨M0, Mc, Mc4, Ma, d, c1, afterCons, afterAlt, _, _, _, _, _, _, _, _, _, hwff, hcc⟩ :=
        ifE_walk cond consequence (.someB b) c L c'
          (compileExpr_wf cond) (compileBlock_wf consequence)
          (fun b' hb => by cases hb; exact compileBlock_wf b) hwf hok
      refine ⟨M0 ++ [⟨Op.OpJumpNotTruthy, [afterCons]⟩] ++ Mc4
        ++ [⟨Op.OpJump, [afterAlt]⟩] ++ Ma, d, ?_, hcc⟩
      have heq : (L ++ M0 ++ [(⟨Op.OpJumpNotTruthy, [afterCons]⟩ : AbsIns)] ++ Mc4
            ++ [(⟨Op.OpJump, [afterAlt]⟩ : AbsIns)] ++ Ma)
          = L ++ (M0 ++ [(⟨Op.OpJumpNotTruthy, [afterCons]⟩ : AbsIns)] ++ Mc4
            ++ [(⟨Op.OpJump, [afterAlt]⟩ : AbsIns)] ++ Ma) := by simp
      exact heq ▸ hwff

theorem compileStmt_wf : ∀ (s : Stmt) (c : Compiler) (L : List AbsIns), WF2 c L →
    ∀ c', compileStmt c s = .ok c' →
    ∃ M d, WF2 c' (L ++ M) ∧ c'.constants = c.constants ++ d
  | .letS _ _, c, L, hwf, c', hok => by
      rw [compileStmt] at hok
      cases hok
      exact ⟨[], [], by simpa using hwf, by simp⟩
  | .returnS _, c, L, hwf, c', hok => by
      rw [compileStmt] at hok
      cases hok
      exact ⟨[], [], by simpa using hwf, by simp⟩
  | .exprS e, c, L, hwf, c', hok => by
      rw [compileStmt] at hok
      cases h1 : compileExpr c e with
      | error er => simp only [h1] at hok; cases hok
      | ok c1 =>
          simp only [h1] at hok
          injection hok with hceq
          subst hceq
          obtain ⟨M1, d1, hw1, hd1⟩ := compileExpr_wf e c L hwf.1 c1 h1
          obtain ⟨hw, _, hc, _⟩ := emit_wf c1 (L ++ M1) .OpPop [] hw1 rfl (by decide)
            (fun h => absurd h (by decide))
          refine ⟨M1 ++ [⟨.OpPop, []⟩], d1, ?_, by rw [hc, hd1]⟩
          have heq : ((L ++ M1) ++ [(⟨Op.OpPop, []⟩ : AbsIns)])
            = L ++ (M1 ++ [(⟨Op.OpPop, []⟩ : AbsIns)]) := by simp
          exact heq ▸ hw

theorem compileStmts_wf : ∀ (ss : StmtList) (c : Compiler) (L : List AbsIns), WF2 c L →
    ∀ c', compileStmts c ss = .ok c' →
    ∃ M d, WF2 c' (L ++ M) ∧ c'.constants = c.constants ++ d
  | .nil, c, L, hwf, c', hok => by
      rw [compileStmts] at hok
      cases hok
      exact ⟨[], [], by simpa using hwf, by simp⟩
  | .cons s rest, c, L, hwf, c', hok => by
      rw [compileStmts] at hok
      cases h1 : compileStmt c s with
      | error e => simp only [h1] at hok; cases hok
      | ok c1 =>
          simp only [h1] at hok
          obtain ⟨M1, d1, hw1, hd1⟩ := compileStmt_wf s c L hwf c1 h1
          obtain ⟨M2, d2, hw2, hd2⟩ := compileStmts_wf rest c1 (L ++ M1) hw1 c' hok
          refine ⟨M1 ++ M2, d1 ++ d2, ?_, by rw [hd2, hd1, List.append_assoc]⟩
          have heq : ((L ++ M1) ++ M2) = L ++ (M1 ++ M2) := by simp
          exact heq ▸ hw2

theorem compileBlock_wf : ∀ (bk : Block) (c : Compiler) (L : List AbsIns), WF2 c L →
    ∀ c', compileBlock c bk = .ok c' →
    ∃ M d, WF2 c' (L ++ M) ∧ c'.constants = c.constants ++ d
  | .mk ss, c, L, hwf, c', hok => compileStmts_wf ss c L hwf c' hok

end

/-! ## Decoding an encoded stream -/

/-- In-stream operand values: a u16 operand is truncated mod 65536, a u8
operand mod 256. -/
def truncOperands (op : Op) (args : List Nat) : List Nat :=
  List.zipWith (fun w v => if w = 2 then v % 65536 else v % 256) (operandWidths op) args

theorem operandWidths_vals (op : Op) (w : Nat) (hw : w ∈ operandWidths op) :
    w = 2 ∨ w = 1 := by
  cases op <;> simp [operandWidths] at hw <;> omega

theorem readOperands_enc : ∀ (ws args rest : List Nat), args.length = ws.length →
    (∀ w ∈ ws, w = 2 ∨ w = 1) →
    readOperands ws ((List.zipWith encW ws args).flatten ++ rest)
      = some (List.zipWith (fun w v => if w = 2 then v % 65536 else v % 256) ws args, rest) := by
  intro ws
  induction ws with
  | nil =>
      intro args rest h _
      cases List.length_eq_zero.mp h
      rfl
  | cons w ws ih =>
      intro args rest h hv
      cases args with
      | nil => cases h
      | cons a as =>
          have hw : w = 2 ∨ w = 1 := hv w (by simp)
          have htail := ih as rest (by simpa using h) (fun x hx => hv x (by simp [hx]))
          rcases hw with rfl | rfl
          · show readOperands (2 :: ws) (([a / 256 % 256, a % 256]
                ++ (List.zipWith encW ws as).flatten) ++ rest) = _
            have key : a / 256 % 256 * 256 + a % 256 = a % 65536 := by omega
            simp [readOperands, List.cons_append, List.append_assoc, htail, key]
          · show readOperands (1 :: ws) (([a % 256]
                ++ (List.zipWith encW ws as).flatten) ++ rest) = _
            simp [readOperands, List.cons_append, List.append_assoc, htail]

theorem encIns_length_pos (i : AbsIns) : 1 ≤ (encIns i).length := by
  rw [encIns_cons]
  simp

theorem flatIns_length_ge (L : List AbsIns) : L.length ≤ (flatIns L).length := by
  induction L with
  | nil => simp [flatIns]
  | cons i t ih =>
      rw [flatIns_cons, List.length_append, List.length_cons]
      have := encIns_length_pos i
      omega

theorem decodeLoop_enc : ∀ (L : List AbsIns) (fuel : Nat), L.length ≤ fuel →
    (∀ i ∈ L, i.args.length = (operandWidths i.op).length) →
    decodeLoop fuel (flatIns L)
      = some (L.map fun i => (i.op, truncOperands i.op i.args)) := by
  intro L
  induction L with
  | nil => intro fuel _ _; rw [flatIns_nil]; cases fuel <;> rfl
  | cons i t ih =>
      intro fuel hfuel harity
      cases fuel with
      | zero => simp at hfuel
      | succ f =>
          rw [flatIns_cons, encIns_cons]
          show decodeLoop (f + 1)
              (opByte i.op :: ((List.zipWith encW (operandWidths i.op) i.args).flatten
                ++ flatIns t)) = _
          rw [decodeLoop]
          simp only [opOfByte_opByte,
            readOperands_enc (operandWidths i.op) i.args (flatIns t)
              (harity i (by simp)) (operandWidths_vals i.op),
            ih f (by simpa using hfuel) (fun x hx => harity x (by simp [hx]))]
          rfl

theorem decodeInstrs_flatIns (L : List AbsIns)
    (h : ∀ i ∈ L, i.args.length = (operandWidths i.op).length) :
    decodeInstrs (flatIns L) = some (L.map fun i => (i.op, truncOperands i.op i.args)) :=
  decodeLoop_enc L (flatIns L).length (flatIns_length_ge L) h

theorem truncOperands_le (op : Op) : ∀ (ws args : List Nat) (a : Nat),
    a ∈ List.zipWith (fun w v => if w = 2 then v % 65536 else v % 256) ws args →
    ∃ v ∈ args, a ≤ v := by
  intro ws
  induction ws with
  | nil => intro args a ha; simp at ha
  | cons w t ih =>
      intro args a ha
      cases args with
      | nil => simp at ha
      | cons v vs =>
          simp only [List.zipWith_cons_cons, List.mem_cons] at ha
          rcases ha with rfl | ha
          · refine ⟨v, by simp, ?_⟩
            split <;> exact Nat.mod_le v _
          · obtain ⟨u, hu, hle⟩ := ih vs a ha
            exact ⟨u, by simp [hu], hle⟩

/-- C7: for every program compiled without error, every `OpConstant`
instruction in the resulting bytecode carries an operand strictly below the
length of the constants pool. -/
theorem opConstant_index_lt_constants (p : Program) (bc : Bytecode)
    (h : programBytecode p = .ok bc) :
    ∃ ds, decodeInstrs bc.instructions = some ds ∧
      ∀ d ∈ ds, d.1 = Op.OpConstant → ∀ a ∈ d.2, a < bc.constants.length := by
  unfold programBytecode compileProgram at h
  cases hc : compileStmts Compiler.new p.statements with
  | error e => rw [hc] at h; cases h
  | ok cf =>
      rw [hc] at h
      injection h with h
      subst h
      obtain ⟨M, d, hw, _⟩ := compileStmts_wf p.statements Compiler.new [] wf2_new cf hc
      have hM : ([] : List AbsIns) ++ M = M := by simp
      rw [hM] at hw
      have harity : ∀ i ∈ M, i.args.length = (operandWidths i.op).length :=
        fun i hi => (hw.1.2.2 i hi).1
      refine ⟨M.map fun i => (i.op, truncOperands i.op i.args), ?_, ?_⟩
      · show decodeInstrs cf.instructions = _
        rw [hw.1.1, decodeInstrs_flatIns M harity]
      · intro dd hdd hopc a ha
        simp only [List.mem_map] at hdd
        obtain ⟨i, hiM, rfl⟩ := hdd
        have hio := hw.1.2.2 i hiM
        obtain ⟨v, hv, hle⟩ := truncOperands_le i.op (operandWidths i.op) i.args a ha
        exact lt_of_le_of_lt hle (hio.2.2 hopc v hv)

/-- Witness for C7 at the concrete program `5;`. -/
theorem opConstant_index_lt_constants_witness :
    programBytecode ⟨.cons (.exprS (.intLit 5)) .nil⟩
        = .ok ⟨[0, 0, 0, 1], [Object.integer 5]⟩ ∧
    ∃ ds, decodeInstrs ([0, 0, 0, 1] : List Nat) = some ds ∧
      ∀ d ∈ ds, d.1 = Op.OpConstant →
        ∀ a ∈ d.2, a < ([Object.integer 5] : List Object).length :=
  ⟨rfl, opConstant_index_lt_constants ⟨.cons (.exprS (.intLit 5)) .nil⟩
    ⟨[0, 0, 0, 1], [Object.integer 5]⟩ rfl⟩

/-! ## Claim theorems for the compiler -/

/-- C1: compiling an `IfExpression` emits the condition, an
`OpJumpNotTruthy` with a placeholder operand, the consequence with a trailing
`OpPop` removed, an `OpJump` with a placeholder, then patches the
`OpJumpNotTruthy` to the offset immediately after the `OpJump`, compiles the
alternative (or emits `OpNull` when absent) again removing a trailing
`OpPop`, and finally patches the `OpJump` to the offset after the
alternative — see `IfShape` for the precise layout. -/
theorem ifExpression_compile_layout (cond : Expr) (consequence : Block)
    (alt : AltBlock) (c c' : Compiler) (L : List AbsIns)
    (hwf : WF1 c L) (hok : compileExpr c (.ifE cond consequence alt) = .ok c') :
    IfShape cond consequence alt c c' L :=
  ifE_walk cond consequence alt c L c' (compileExpr_wf cond)
    (compileBlock_wf consequence) (fun b _ => compileBlock_wf b) hwf hok

/-- Witness for C1 at `if (true) { 10 } else { 20 }` from a fresh compiler. -/
theorem ifExpression_compile_layout_witness :
    compileExpr Compiler.new (.ifE (.boolLit true)
        (.mk (.cons (.exprS (.intLit 10)) .nil))
        (.someB (.mk (.cons (.exprS (.intLit 20)) .nil))))
      = .ok { instructions := [6, 14, 0, 10, 0, 0, 0, 15, 0, 13, 0, 0, 1]
              constants := [Object.integer 10, Object.integer 20]
              lastInstruction := { opcode := Op.OpConstant, position := 10 }
              previousInstruction := { opcode := Op.OpConstant, position := 10 } } ∧
    IfShape (.boolLit true) (.mk (.cons (.exprS (.intLit 10)) .nil))
      (.someB (.mk (.cons (.exprS (.intLit 20)) .nil))) Compiler.new
      { instructions := [6, 14, 0, 10, 0, 0, 0, 15, 0, 13, 0, 0, 1]
        constants := [Object.integer 10, Object.integer 20]
        lastInstruction := { opcode := Op.OpConstant, position := 10 }
        previousInstruction := { opcode := Op.OpConstant, position := 10 } } [] :=
  ⟨rfl, ifExpression_compile_layout _ _ _ _ _ [] wf2_new.1 rfl⟩

/-- C6: an `InfixExpression` with operator `<` is compiled by emitting the
right operand's code first, then the left operand's, then `OpGreaterThan`;
moreover any successfully compiled program decodes to instructions whose
opcodes all lie in the sixteen-opcode set this compiler emits, which contains
no dedicated less-than opcode. -/
theorem lessThan_compiles_reversed (left right : Expr) (c c' : Compiler)
    (L : List AbsIns) (hwf : WF1 c L)
    (hok : compileExpr c (.infixE "<" left right) = .ok c') :
    (∃ cr cl Mr Ml,
      compileExpr c right = .ok cr ∧ WF1 cr (L ++ Mr) ∧
      compileExpr cr left = .ok cl ∧ WF1 cl ((L ++ Mr) ++ Ml) ∧
      c' = (emit cl .OpGreaterThan []).1 ∧
      c'.instructions = cl.instructions ++ Make Op.OpGreaterThan []) ∧
    (∀ (p : Program) (bc : Bytecode), programBytecode p = .ok bc →
      ∃ ds, decodeInstrs bc.instructions = some ds ∧ ∀ dd ∈ ds, dd.1 ∈ emittedOps) := by
  constructor
  · rw [compileExpr, if_pos rfl] at hok
    cases h1 : compileExpr c right with
    | error e => rw [h1] at hok; cases hok
    | ok cr =>
        simp only [h1] at hok
        obtain ⟨Mr, dr, hwr, _⟩ := compileExpr_wf right c L hwf cr h1
        cases h2 : compileExpr cr left with
        | error e => rw [h2] at hok; cases hok
        | ok cl =>
            simp only [h2] at hok
            injection hok with hceq
            obtain ⟨Ml, dl, hwl, _⟩ := compileExpr_wf left cr (L ++ Mr) hwr cl h2
            exact ⟨cr, cl, Mr, Ml, rfl, hwr, h2, hwl, hceq.symm, by rw [← hceq]; rfl⟩
  · intro p bc h
    unfold programBytecode compileProgram at h
    cases hc : compileStmts Compiler.new p.statements with
    | error e => rw [hc] at h; cases h
    | ok cf =>
        rw [hc] at h
        injection h with h
        subst h
        obtain ⟨M, d, hw, _⟩ := compileStmts_wf p.statements Compiler.new [] wf2_new cf hc
        have hM : ([] : List AbsIns) ++ M = M := by simp
        rw [hM] at hw
        have harity : ∀ i ∈ M, i.args.length = (operandWidths i.op).length :=
          fun i hi => (hw.1.2.2 i hi).1
        refine ⟨M.map fun i => (i.op, truncOperands i.op i.args), ?_, ?_⟩
        · show decodeInstrs cf.instructions = _
          rw [hw.1.1, decodeInstrs_flatIns M harity]
        · intro dd hdd
          simp only [List.mem_map] at hdd
          obtain ⟨i, hiM, rfl⟩ := hdd
          exact (hw.1.2.2 i hiM).2.1

/-- Witness for C6 at `1 < 2` from a fresh compiler. -/
theorem lessThan_compiles_reversed_witness :
    compileExpr Compiler.new (.infixE "<" (.intLit 1) (.intLit 2))
      = .ok { instructions := [0, 0, 0, 0, 0, 1, 11]
              constants := [Object.integer 2, Object.integer 1]
              lastInstruction := { opcode := Op.OpGreaterThan, position := 6 }
              previousInstruction := { opcode := Op.OpConstant, position := 3 } } ∧
    ((∃ cr cl Mr Ml,
      compileExpr Compiler.new (.intLit 2) = .ok cr ∧ WF1 cr ([] ++ Mr) ∧
      compileExpr cr (.intLit 1) = .ok cl ∧ WF1 cl (([] ++ Mr) ++ Ml) ∧
      { instructions := ([0, 0, 0, 0, 0, 1, 11] : List Nat)
        constants := [Object.integer 2, Object.integer 1]
        lastInstruction := { opcode := Op.OpGreaterThan, position := 6 }
        previousInstruction := { opcode := Op.OpConstant, position := 3 } }
          = (emit cl .OpGreaterThan []).1 ∧
      ([0, 0, 0, 0, 0, 1, 11] : List Nat) = cl.instructions ++ Make Op.OpGreaterThan []) ∧
    (∀ (p : Program) (bc : Bytecode), programBytecode p = .ok bc →
      ∃ ds, decodeInstrs bc.instructions = some ds ∧ ∀ dd ∈ ds, dd.1 ∈ emittedOps)) :=
  ⟨rfl, lessThan_compiles_reversed (.intLit 1) (.intLit 2) Compiler.new _ [] wf2_new.1 rfl⟩

/-- C2 counterexample: an unresolvable identifier does not make `Compile`
fail — the type switch has no `Identifier` case, so the node is skipped and
compilation succeeds with the state unchanged. -/
theorem identifier_compiles_silently :
    compileExpr Compiler.new (.identE "x") = .ok Compiler.new := rfl

/-- C2 amended: unknown infix and prefix operators do surface errors, but
identifiers, let statements and return statements — node kinds without a
case in the compiler's type switch — compile silently to nothing. -/
theorem compile_unknown_operator_errors :
    (∀ (c : Compiler) (op : String) (l r : Expr),
      op ∉ (["<", "+", "-", "*", "/", ">", "==", "!="] : List String) →
      ∀ c', compileExpr c (.infixE op l r) ≠ .ok c') ∧
    (∀ (c : Compiler) (op : String) (r : Expr),
      op ∉ (["!", "-"] : List String) →
      ∀ c', compileExpr c (.prefixE op r) ≠ .ok c') ∧
    (∀ (c : Compiler) (name : String), compileExpr c (.identE name) = .ok c) ∧
    (∀ (c : Compiler) (name : String) (v : Expr),
      compileStmt c (.letS name v) = .ok c ∧ compileStmt c (.returnS v) = .ok c) := by
  refine ⟨?_, ?_, fun c name => rfl, fun c name v => ⟨rfl, rfl⟩⟩
  · intro c op l r hop c' hok
    simp only [List.mem_cons, List.mem_singleton, not_or] at hop
    obtain ⟨hlt, hadd, hsub, hmul, hdiv, hgt, heq, hne, -⟩ := hop
    rw [compileExpr, if_neg hlt] at hok
    cases h1 : compileExpr c l with
    | error e => rw [h1] at hok; cases hok
    | ok c1 =>
        simp only [h1] at hok
        cases h2 : compileExpr c1 r with
        | error e => rw [h2] at hok; cases hok
        | ok c2 =>
            simp only [h2] at hok
            rw [if_neg hadd, if_neg hsub, if_neg hmul, if_neg hdiv, if_neg hgt,
              if_neg heq, if_neg hne] at hok
            cases hok
  · intro c op r hop c' hok
    simp only [List.mem_cons, List.mem_singleton, not_or] at hop
    obtain ⟨hbang, hminus, -⟩ := hop
    rw [compileExpr] at hok
    cases h1 : compileExpr c r with
    | error e => rw [h1] at hok; cases hok
    | ok c1 =>
        simp only [h1] at hok
        rw [if_neg hbang, if_neg hminus] at hok
        cases hok

/-- Witness for the amended C2 at the unknown operators `%` and `~`. -/
theorem compile_unknown_operator_errors_witness :
    (compileExpr Compiler.new (.infixE "%" (.intLit 1) (.intLit 2)) ≠ .ok Compiler.new) ∧
    (compileExpr Compiler.new (.prefixE "~" (.intLit 1)) ≠ .ok Compiler.new) :=
  ⟨compile_unknown_operator_errors.1 Compiler.new "%" (.intLit 1) (.intLit 2)
      (by decide) Compiler.new,
   compile_unknown_operator_errors.2.1 Compiler.new "~" (.intLit 1)
      (by decide) Compiler.new⟩

/-- C3: the keyword table of `token.go` holds only `fn` and `let`, so
`LookupIdent` classifies `"true"` (bytes `[116, 114, 117, 101]`) — and every
other non-keyword — as `IDENT`, never producing a `TRUE` (or `FALSE`, `IF`,
`ELSE`, `RETURN`) token type, which do not even exist in `token.go`. -/
theorem lookupIdent_true_is_ident :
    LookupIdent [116, 114, 117, 101] = IDENT ∧
    IDENT ≠ "TRUE" ∧
    (∀ s : List Nat, LookupIdent s = FUNCTION ∨ LookupIdent s = LET ∨ LookupIdent s = IDENT) := by
  refine ⟨rfl, by decide, ?_⟩
  intro s
  unfold LookupIdent
  split
  · exact Or.inl rfl
  · split
    · exact Or.inr (Or.inl rfl)
    · exact Or.inr (Or.inr rfl)

/-- C4: `Boolean.Type()` returns the `INTEGER_OBJ` tag `"INTEGER"`, not
`BOOLEAN_OBJ` — the bug the spec's open question (a) records. -/
theorem boolean_objectType_integer :
    (∀ b : Bool, (Object.boolean b).objectType = INTEGER_OBJ) ∧
    INTEGER_OBJ = "INTEGER" ∧
    INTEGER_OBJ ≠ BOOLEAN_OBJ :=
  ⟨fun _ => rfl, rfl, by decide⟩

/-! ## Lexer lemmas -/

/-- The window invariant every lexer reachable through `readChar` satisfies:
the read position is one past the current position and `ch` caches the byte
at the current position (0 when out of range). -/
def LexWF (l : Lexer) : Prop :=
  l.readPosition = l.position + 1 ∧ l.ch = l.input.getD l.position 0

theorem readChar_lexWF (l : Lexer) : LexWF (readChar l) := by
  refine ⟨rfl, ?_⟩
  show (if l.input.length ≤ l.readPosition then 0 else l.input.getD l.readPosition 0)
      = l.input.getD l.readPosition 0
  split
  · rw [List.getD_eq_default _ _ (by assumption)]
  · rfl

theorem lexer_new_lexWF (input : List Nat) : LexWF (Lexer.new input) :=
  readChar_lexWF _

theorem skipWsLoop_succ (fuel : Nat) (l : Lexer) :
    skipWsLoop (fuel + 1) l
      = if isWhitespace l.ch then skipWsLoop fuel (readChar l) else l := rfl

theorem skipWhitespace_noop (l : Lexer) (h : isWhitespace l.ch = false) :
    skipWhitespace l = l := by
  rw [skipWhitespace, show l.input.length + 2 = l.input.length + 1 + 1 from rfl,
    skipWsLoop_succ]
  simp [h]

theorem readIdentLoop_succ (fuel : Nat) (l : Lexer) :
    readIdentLoop (fuel + 1) l
      = if isLetter l.ch then readIdentLoop fuel (readChar l) else l := rfl

/-- The `readIdentifier` loop advances the position over exactly the maximal
run of `isLetter` bytes (letters and underscores only). -/
theorem readIdentLoop_spec : ∀ (fuel : Nat) (l : Lexer), LexWF l →
    l.input.length + 1 ≤ fuel + l.position →
    (readIdentLoop fuel l).position
      = l.position + ((l.input.drop l.position).takeWhile (fun b => isLetter b)).length ∧
    (readIdentLoop fuel l).input = l.input := by
  intro fuel
  induction fuel with
  | zero =>
      intro l _ hbound
      have hdrop : l.input.drop l.position = [] := List.drop_eq_nil_of_le (by omega)
      exact ⟨by simp [readIdentLoop, hdrop], rfl⟩
  | succ f ih =>
      intro l hwf hbound
      rw [readIdentLoop_succ]
      cases hl : isLetter l.ch with
      | false =>
          simp only [hl, Bool.false_eq_true, if_false]
          rcases Nat.lt_or_ge l.position l.input.length with hpos | hpos
          · have hdrop := List.drop_eq_getElem_cons hpos
            rw [hdrop, List.takeWhile_cons]
            have : isLetter l.input[l.position] = false := by
              rw [← List.getD_eq_getElem l.input 0 hpos, ← hwf.2]; exact hl
            simp [this]
          · have hdrop : l.input.drop l.position = [] := List.drop_eq_nil_of_le hpos
            simp [hdrop]
      | true =>
          simp only [hl, if_true]
          have hpos : l.position < l.input.length := by
            by_contra hge
            have h0 : l.ch = 0 := by
              rw [hwf.2, List.getD_eq_default _ _ (by omega)]
            rw [h0] at hl
            simp [isLetter] at hl
          have hrc1 : (readChar l).position = l.position + 1 := by
            show l.readPosition = l.position + 1
            exact hwf.1
          have hrc2 : (readChar l).input = l.input := rfl
          obtain ⟨ihpos, ihinput⟩ := ih (readChar l) (readChar_lexWF l)
            (by rw [hrc2, hrc1]; omega)
          rw [ihpos, ihinput, hrc1, hrc2]
          have hdrop := List.drop_eq_getElem_cons hpos
          rw [hdrop, List.takeWhile_cons]
          have hhd : isLetter l.input[l.position] = true := by
            rw [← List.getD_eq_getElem l.input 0 hpos, ← hwf.2]; exact hl
          simp [hhd]
          omega

theorem take_takeWhile {α : Type} (p : α → Bool) :
    ∀ (xs : List α), xs.take (xs.takeWhile p).length = xs.takeWhile p := by
  intro xs
  induction xs with
  | nil => rfl
  | cons x t ih =>
      rw [List.takeWhile_cons]
      cases hp : p x with
      | false => simp [hp]
      | true => simp [hp, ih]

/-- C5 counterexample: lexing `a1` yields `IDENT "a"` then `INT "1"`; the
identifier literal stops at the digit instead of being the claimed maximal
letters-digits-underscores run `a1`. -/
theorem readIdentifier_digit_counterexample :
    nthToken (Lexer.new [97, 49]) 0 = { type := IDENT, literal := [97] } ∧
    nthToken (Lexer.new [97, 49]) 1 = { type := INT, literal := [49] } ∧
    ([97] : List Nat) ≠ [97, 49] := by
  refine ⟨by decide, by decide, by decide⟩

/-- C5 amended: when the current byte is a letter or underscore, `NextToken`
reads the maximal run of `isLetter` bytes — letters and underscores only,
digits end the run — as the token literal, and classifies it through
`LookupIdent`. -/
theorem nextToken_letter_literal (l : Lexer) (hwf : LexWF l)
    (hl : isLetter l.ch = true) :
    (NextToken l).1.literal
      = (l.input.drop l.position).takeWhile (fun b => isLetter b) ∧
    (NextToken l).1.type
      = LookupIdent ((l.input.drop l.position).takeWhile (fun b => isLetter b)) := by
  have hb : ((97 ≤ l.ch ∧ l.ch ≤ 122) ∨ (65 ≤ l.ch ∧ l.ch ≤ 90)) ∨ l.ch = 95 := by
    simpa [isLetter, Bool.or_eq_true, Bool.and_eq_true, decide_eq_true_eq] using hl
  have hlo : 65 ≤ l.ch := by rcases hb with (⟨h1, _⟩ | ⟨h1, _⟩) | h1 <;> omega
  have hhi : l.ch ≤ 122 := by rcases hb with (⟨_, h2⟩ | ⟨_, h2⟩) | h2 <;> omega
  have hws : isWhitespace l.ch = false := by
    simp only [isWhitespace, Bool.or_eq_false_iff, beq_eq_false_iff_ne, ne_eq]
    omega
  have hskip : skipWhitespace l = l := skipWhitespace_noop l hws
  rw [NextToken, hskip]
  iterate 15 rw [if_neg (by omega)]
  rw [if_pos hl]
  obtain ⟨hpos, hinput⟩ := readIdentLoop_spec (l.input.length + 2) l hwf (by omega)
  constructor
  · show sliceBytes l.input l.position (readIdentLoop (l.input.length + 2) l).position
        = _
    rw [sliceBytes, hpos, List.drop_take, Nat.add_sub_cancel_left,
      take_takeWhile]
  · show LookupIdent (sliceBytes l.input l.position
        (readIdentLoop (l.input.length + 2) l).position) = _
    rw [sliceBytes, hpos, List.drop_take, Nat.add_sub_cancel_left,
      take_takeWhile]

/-- Witness for the amended C5 at the input `a1`. -/
theorem nextToken_letter_literal_witness :
    LexWF (Lexer.new [97, 49]) ∧
    (NextToken (Lexer.new [97, 49])).1.literal
      = (([97, 49] : List Nat).drop 0).takeWhile (fun b => isLetter b) ∧
    (NextToken (Lexer.new [97, 49])).1.type
      = LookupIdent ((([97, 49] : List Nat).drop 0).takeWhile (fun b => isLetter b)) :=
  ⟨lexer_new_lexWF [97, 49],
   nextToken_letter_literal (Lexer.new [97, 49]) (lexer_new_lexWF [97, 49]) rfl⟩

/-! ## End-of-input and NUL behaviour -/

/-- The lexer has consumed the whole input: the read position is past the
end and the cached byte is the NUL sentinel. -/
def endOfInput (l : Lexer) : Prop :=
  l.input.length ≤ l.readPosition ∧ l.ch = 0

theorem nextToken_at_eof (l : Lexer) (h : endOfInput l) :
    (NextToken l).1 = { type := EOF, literal := [] } ∧ endOfInput (NextToken l).2 := by
  obtain ⟨hlen, hch⟩ := h
  have hskip : skipWhitespace l = l := skipWhitespace_noop l (by rw [hch]; rfl)
  rw [NextToken, hskip, hch]
  iterate 14 rw [if_neg (by decide)]
  rw [if_pos rfl]
  refine ⟨rfl, ?_, ?_⟩
  · show l.input.length ≤ l.readPosition + 1
    omega
  · show (if l.input.length ≤ l.readPosition then 0 else _) = 0
    rw [if_pos hlen]

/-- C9: once the lexer has reached the end of input, every further
`NextToken` call returns the `EOF` token with an empty literal, forever. -/
theorem nextToken_eof_idempotent (l : Lexer) (h : endOfInput l) :
    ∀ n, nthToken l n = { type := EOF, literal := [] } := by
  intro n
  induction n generalizing l with
  | zero => exact (nextToken_at_eof l h).1
  | succ k ih => exact ih (NextToken l).2 (nextToken_at_eof l h).2

/-- Witness for C9 on the empty input. -/
theorem nextToken_eof_idempotent_witness :
    endOfInput (Lexer.new []) ∧
    nthToken (Lexer.new []) 0 = { type := EOF, literal := [] } ∧
    nthToken (Lexer.new []) 7 = { type := EOF, literal := [] } :=
  ⟨by constructor <;> decide,
   nextToken_eof_idempotent (Lexer.new []) ⟨by decide, by decide⟩ 0,
   nextToken_eof_idempotent (Lexer.new []) ⟨by decide, by decide⟩ 7⟩

/-- C10 counterexample: on the input `a\x00b` the lexer returns
`IDENT "a"`, then an `EOF` token at the NUL, but the next call tokenizes the
byte after the NUL as `IDENT "b"` — the NUL does not end tokenization. -/
theorem nul_not_terminating_counterexample :
    nthToken (Lexer.new [97, 0, 98]) 0 = { type := IDENT, literal := [97] } ∧
    nthToken (Lexer.new [97, 0, 98]) 1 = { type := EOF, literal := [] } ∧
    nthToken (Lexer.new [97, 0, 98]) 2 = { type := IDENT, literal := [98] } ∧
    ({ type := IDENT, literal := [98] } : Token) ≠ { type := EOF, literal := [] } := by
  refine ⟨by decide, by decide, by decide, by decide⟩

/-- C10 amended: at an interior NUL byte `NextToken` does return an `EOF`
token, but the trailing `readChar` advances past the NUL, loading the next
input byte; subsequent calls keep tokenizing the remainder. -/
theorem nextToken_interior_nul (l : Lexer) (hwf : LexWF l) (hch : l.ch = 0)
    (hmid : l.readPosition < l.input.length) :
    (NextToken l).1 = { type := EOF, literal := [] } ∧
    (NextToken l).2.position = l.readPosition ∧
    (NextToken l).2.readPosition = l.readPosition + 1 ∧
    (NextToken l).2.ch = l.input.getD l.readPosition 0 := by
  have hskip : skipWhitespace l = l := skipWhitespace_noop l (by rw [hch]; rfl)
  rw [NextToken, hskip, hch]
  iterate 14 rw [if_neg (by decide)]
  rw [if_pos rfl]
  refine ⟨rfl, rfl, rfl, ?_⟩
  show (if l.input.length ≤ l.readPosition then 0 else l.input.getD l.readPosition 0)
      = l.input.getD l.readPosition 0
  rw [if_neg (by omega)]

/-- Witness for the amended C10 at the lexer state reached after `IDENT "a"`
on the input `a\x00b`. -/
theorem nextToken_interior_nul_witness :
    (NextToken { input := [97, 0, 98], position := 1, readPosition := 2, ch := 0 }).1
        = { type := EOF, literal := [] } ∧
    (NextToken { input := [97, 0, 98], position := 1, readPosition := 2, ch := 0 }).2.position = 2 ∧
    (NextToken { input := [97, 0, 98], position := 1, readPosition := 2, ch := 0 }).2.readPosition = 3 ∧
    (NextToken { input := [97, 0, 98], position := 1, readPosition := 2, ch := 0 }).2.ch
        = ([97, 0, 98] : List Nat).getD 2 0 :=
  nextToken_interior_nul { input := [97, 0, 98], position := 1, readPosition := 2, ch := 0 }
    ⟨rfl, rfl⟩ rfl (by decide)

/-! ## REPL claims -/

/-- C8 counterexample: when `Run` fails, the iteration prints the diagnostic
and then still prints the inspected last-popped value — there is no
`continue` after a VM error, unlike the parse- and compile-error paths. -/
theorem repl_prints_lastPopped_after_error :
    replIteration [] (.ok ()) (.error "boom") "5"
      = ["Woops! Executing bytecode failed:\nboom\n", "5", "\n"] ∧
    "5" ∈ replIteration [] (.ok ()) (.error "boom") "5" := by
  refine ⟨rfl, ?_⟩
  show "5" ∈ (["Woops! Executing bytecode failed:\nboom\n", "5", "\n"] : List String)
  simp

/-- C8 amended: parser and compile errors short-circuit the iteration, but a
`Run` error only prints its diagnostic first — the inspected last-popped
value and a newline are printed afterwards on both the error and the success
path. -/
theorem repl_run_error_output (msg ins : String) :
    replIteration [] (.ok ()) (.error msg) ins
      = ["Woops! Executing bytecode failed:\n" ++ msg ++ "\n", ins, "\n"] ∧
    replIteration [] (.ok ()) (.ok ()) ins = [ins, "\n"] ∧
    (∀ (compileMsg : String) (runResult : Except String Unit),
      replIteration [] (.error compileMsg) runResult ins
        = ["Woops! Compilation failed:\n " ++ compileMsg ++ "\n"]) :=
  ⟨rfl, rfl, fun _ _ => rfl⟩

end Monkey
